import Mathlib

/-!
# kamijin-fanta/timeseries: the Gorilla-style block codec

A shallow embedding of `encoder.go` and `decoder.go`.

* `uint64` values are natural numbers below `2 ^ 64`; every wrapping operation
  carries its `% 2 ^ 64` explicitly.  `uint8` fields wrap with `% 256`.
* `int64` values are integers in `[-2 ^ 63, 2 ^ 63)`.
* A `float64` sample value is represented by its IEEE-754 bit pattern
  (`math.Float64bits`), so equality of values is equality of patterns.
* The bit stream of `github.com/dgryski/go-bitstream` is an external library;
  it is represented by the list of bits written or still to be read,
  most significant bit first.
-/

namespace Timeseries

/-! ## Errors -/

/-- Errors returned by the codec.  The constructor `eof` is Go's `io.EOF`: the value
`DecodePoint` returns at a finish marker, and also the value the bit reader over a
byte buffer returns when it has no more input.  The constructor `invalidBitHeader`
is the error created in the default branch of `bitsToRead`. -/
inductive Error where
  | eof
  | invalidBitHeader
  deriving DecidableEq, Repr

/-! ## Machine integers -/

/-- Conversion `int64(u)` of a `uint64`. -/
def toInt64 (u : Nat) : Int :=
  if u < 2 ^ 63 then (u : Int) else (u : Int) - 2 ^ 64

/-- Conversion `uint64(i)` of an `int64` (also of any integer, modulo `2 ^ 64`). -/
def toUint64 (i : Int) : Nat :=
  (i % 2 ^ 64).toNat

/-- Result of an `int64` operation whose mathematical value is `i`. -/
def wrapInt64 (i : Int) : Int :=
  toInt64 (toUint64 i)

/-- Subtraction `a - b` in `uint8`. -/
def sub8 (a b : Nat) : Nat :=
  (a % 256 + 256 - b % 256) % 256

/-! ## The bit stream (go-bitstream) -/

/-- The `n` low bits of `u`, most significant first. -/
def bitsOfNat (u : Nat) : Nat → List Bool
  | 0 => []
  | n + 1 => decide (u / 2 ^ n % 2 = 1) :: bitsOfNat u n

/-- The number whose binary digits, most significant first, are `acc` followed by the bits. -/
def natOfBits : Nat → List Bool → Nat
  | acc, [] => acc
  | acc, b :: bs => natOfBits (2 * acc + b.toNat) bs

/-- Method `BitWriter.WriteBit`. -/
def WriteBit (w : List Bool) (b : Bool) : Except Error (List Bool) :=
  .ok (w ++ [b])

/-- Method `BitWriter.WriteBits(u, nbits)`: the `nbits` low bits of `u`, most significant
first.  For `nbits > 64` the library shifts `u` out entirely and writes zero bits. -/
def WriteBits (w : List Bool) (u : Nat) (nbits : Nat) : Except Error (List Bool) :=
  .ok (w ++ if nbits ≤ 64 then bitsOfNat u nbits else List.replicate nbits false)

/-- Method `BitWriter.Flush(bit)`: pad with `bit` up to the next byte boundary. -/
def Flush (w : List Bool) (bit : Bool) : Except Error (List Bool) :=
  .ok (w ++ List.replicate ((8 - w.length % 8) % 8) bit)

/-- The bytes that have reached the underlying buffer: one byte for every complete
group of eight bits. -/
def bytesOfBits : List Bool → List Nat
  | b7 :: b6 :: b5 :: b4 :: b3 :: b2 :: b1 :: b0 :: rest =>
      natOfBits 0 [b7, b6, b5, b4, b3, b2, b1, b0] :: bytesOfBits rest
  | _ => []

/-- The bits a reader over the given bytes delivers. -/
def bitsOfBytes : List Nat → List Bool
  | [] => []
  | b :: bs => bitsOfNat b 8 ++ bitsOfBytes bs

/-- Method `BitReader.ReadBit`; an exhausted reader gives `io.EOF`. -/
def ReadBit : List Bool → Except Error (Bool × List Bool)
  | [] => .error .eof
  | b :: r => .ok (b, r)

/-- Method `BitReader.ReadBits(nbits)`: the next `nbits` bits as a `uint64`
(bits shifted beyond 64 positions are lost); `io.EOF` when the input is too short. -/
def ReadBits (r : List Bool) (nbits : Nat) : Except Error (Nat × List Bool) :=
  if r.length < nbits then .error .eof
  else .ok (natOfBits 0 (r.take nbits) % 2 ^ 64, r.drop nbits)

/-! ## Shared types and helpers -/

/-- Modelled from the spec: the sample record `Point` (its declaration is not among the
sources): an unsigned 64-bit `Timestamp` and a `float64` `Value`, the latter kept as
its 64-bit pattern. -/
structure Point where
  Timestamp : Nat
  Value : Nat
  deriving DecidableEq, Repr

/-- Counts the zero bits above the highest set bit among the `n` low bits. -/
def leadingZerosAux (x : Nat) : Nat → Nat
  | 0 => 0
  | n + 1 => if x / 2 ^ n % 2 = 1 then 0 else leadingZerosAux x n + 1

/-- Counts the zero bits below the lowest set bit among the `n` low bits. -/
def trailingZerosAux : Nat → Nat → Nat
  | _, 0 => 0
  | x, n + 1 => if x % 2 = 1 then 0 else trailingZerosAux (x / 2) n + 1

/-- Modelled from the spec: helper `numOfLeadingZeros` (its body is not among the
sources): the number of leading zero bits of a 64-bit word, in `[0, 64]`. -/
def numOfLeadingZeros (x : Nat) : Nat :=
  leadingZerosAux x 64

/-- Modelled from the spec: helper `numOfTrailingZeros` (its body is not among the
sources): the number of trailing zero bits of a 64-bit word, in `[0, 64]`. -/
def numOfTrailingZeros (x : Nat) : Nat :=
  trailingZerosAux x 64

/-- Constant `nBitsFirstDelta`. -/
def nBitsFirstDelta : Nat := 38

/-! ## Encoder -/

/-- Struct `Encoder`; `wr` holds every bit written so far. -/
structure Encoder where
  wr : List Bool
  headerTimestamp : Nat
  storedTimestamp : Nat
  storedDelta : Nat
  storedLeadingZeros : Nat
  storedTrailingZeros : Nat
  storedValueBits : Nat
  deriving DecidableEq, Repr

/-- Function `NewEncoder` over an empty buffer; `math.MaxInt8` is 127. -/
def NewEncoder : Encoder :=
  { wr := [], headerTimestamp := 0, storedTimestamp := 0, storedDelta := 0,
    storedLeadingZeros := 127, storedTrailingZeros := 0, storedValueBits := 0 }

/-- Method `Encoder.EncodeHeader`. -/
def EncodeHeader (e : Encoder) (t0 : Nat) : Except Error Encoder := do
  let w ← WriteBits e.wr t0 64
  pure { e with wr := w, headerTimestamp := t0 }

/-- Method `Encoder.writeFirst`. -/
def writeFirst (e : Encoder) (p : Point) : Except Error Encoder := do
  let delta := (p.Timestamp + 2 ^ 64 - e.headerTimestamp) % 2 ^ 64
  let e := { e with storedTimestamp := p.Timestamp, storedDelta := delta,
                    storedValueBits := p.Value }
  let w ← WriteBits e.wr delta nBitsFirstDelta
  let w ← WriteBits w e.storedValueBits 64
  pure { e with wr := w }

/-- Function `writeInt64Bits`. -/
def writeInt64Bits (w : List Bool) (i : Int) (nbits : Nat) : Except Error (List Bool) :=
  let u := if 0 ≤ i ∨ 64 ≤ nbits then toUint64 i else toUint64 (wrapInt64 (2 ^ nbits + i))
  WriteBits w u nbits

/-- Method `Encoder.writeTimestampDeltaDelta`. -/
def writeTimestampDeltaDelta (e : Encoder) (timestamp : Nat) : Except Error Encoder := do
  let delta := (timestamp + 2 ^ 64 - e.storedTimestamp) % 2 ^ 64
  let deltaDelta := wrapInt64 (toInt64 delta - toInt64 e.storedDelta)
  let e := { e with storedTimestamp := timestamp, storedDelta := delta }
  if deltaDelta = 0 then do
    let w ← WriteBit e.wr false
    pure { e with wr := w }
  else if -63 ≤ deltaDelta ∧ deltaDelta ≤ 64 then do
    let w ← WriteBits e.wr 0x02 2
    let w ← writeInt64Bits w deltaDelta 7
    pure { e with wr := w }
  else if -255 ≤ deltaDelta ∧ deltaDelta ≤ 256 then do
    let w ← WriteBits e.wr 0x06 3
    let w ← writeInt64Bits w deltaDelta 9
    pure { e with wr := w }
  else if -2047 ≤ deltaDelta ∧ deltaDelta ≤ 2048 then do
    let w ← WriteBits e.wr 0x0E 4
    let w ← writeInt64Bits w deltaDelta 12
    pure { e with wr := w }
  else do
    let w ← WriteBits e.wr 0x0F 4
    let w ← writeInt64Bits w deltaDelta 64
    pure { e with wr := w }

/-- Method `Encoder.writeValueXor`; the argument is `math.Float64bits(value)`. -/
def writeValueXor (e : Encoder) (valueBits : Nat) : Except Error Encoder := do
  let xor := e.storedValueBits ^^^ valueBits
  let e := { e with storedValueBits := valueBits }
  if xor = 0 then do
    let w ← WriteBit e.wr false
    pure { e with wr := w }
  else do
    let leadingZeros := numOfLeadingZeros xor
    let trailingZeros := numOfTrailingZeros xor
    let w ← WriteBit e.wr true
    if e.storedLeadingZeros ≤ leadingZeros ∧ e.storedTrailingZeros ≤ trailingZeros then do
      let w ← WriteBit w false
      let significantBits := sub8 (sub8 64 e.storedLeadingZeros) e.storedTrailingZeros
      let w ← WriteBits w (xor / 2 ^ e.storedTrailingZeros) significantBits
      pure { e with wr := w }
    else do
      let e := { e with storedLeadingZeros := leadingZeros,
                        storedTrailingZeros := trailingZeros }
      let w ← WriteBit w true
      let w ← WriteBits w leadingZeros 5
      let significantBits := sub8 (sub8 64 leadingZeros) trailingZeros
      let w ← WriteBits w significantBits 6
      let w ← WriteBits w (xor / 2 ^ e.storedTrailingZeros) significantBits
      pure { e with wr := w }

/-- Method `Encoder.writePoint`. -/
def writePoint (e : Encoder) (p : Point) : Except Error Encoder := do
  let e ← writeTimestampDeltaDelta e p.Timestamp
  writeValueXor e p.Value

/-- Method `Encoder.EncodePoint`. -/
def EncodePoint (e : Encoder) (p : Point) : Except Error Encoder :=
  if e.storedTimestamp = 0 then writeFirst e p else writePoint e p

/-- Method `Encoder.Finish`. -/
def Finish (e : Encoder) : Except Error Encoder := do
  if e.storedTimestamp = 0 then do
    let w ← WriteBits e.wr (2 ^ nBitsFirstDelta - 1) nBitsFirstDelta
    let w ← WriteBits w 0 64
    let w ← Flush w false
    pure { e with wr := w }
  else do
    let w ← WriteBits e.wr 0x0F 4
    let w ← WriteBits w 0xFFFFFFFFFFFFFFFF 64
    let w ← WriteBit w false
    let w ← Flush w false
    pure { e with wr := w }

/-! ## Decoder -/

/-- Struct `Decoder`; `rd` holds the bits not yet read. -/
structure Decoder where
  rd : List Bool
  headerTimestamp : Nat
  storedTimestamp : Nat
  storedDelta : Nat
  storedLeadingZeros : Nat
  storedTrailingZeros : Nat
  storedValueBits : Nat
  deriving DecidableEq, Repr

/-- Function `NewDecoder` over a reader delivering the given bits. -/
def NewDecoder (r : List Bool) : Decoder :=
  { rd := r, headerTimestamp := 0, storedTimestamp := 0, storedDelta := 0,
    storedLeadingZeros := 0, storedTrailingZeros := 0, storedValueBits := 0 }

/-- Method `Decoder.DecodeHeader`. -/
def DecodeHeader (d : Decoder) : Except Error (Nat × Decoder) := do
  let (timestamp, r) ← ReadBits d.rd 64
  let d := { d with rd := r, headerTimestamp := timestamp }
  pure (d.headerTimestamp, d)

/-- Method `Decoder.readFirst`. -/
def readFirst (d : Decoder) : Except Error (Point × Decoder) := do
  let (delta, r) ← ReadBits d.rd nBitsFirstDelta
  if delta = 2 ^ nBitsFirstDelta - 1 then .error .eof
  else do
    let (valueBits, r) ← ReadBits r 64
    let d := { d with rd := r, storedDelta := delta,
                      storedTimestamp := (d.headerTimestamp + delta) % 2 ^ 64,
                      storedValueBits := valueBits }
    pure ({ Timestamp := d.storedTimestamp, Value := d.storedValueBits }, d)

/-- The `for` loop of `Decoder.bitsToRead` with `k` iterations left. -/
def bitsToReadLoop : Nat → Nat → List Bool → Except Error (Nat × List Bool)
  | 0, val, r => .ok (val, r)
  | k + 1, val, r => do
    let val := val * 2
    let (b, r) ← ReadBit r
    if b then bitsToReadLoop k (val ||| 1) r else .ok (val, r)

/-- Method `Decoder.bitsToRead`. -/
def bitsToRead (d : Decoder) : Except Error (Nat × Decoder) := do
  let (val, r) ← bitsToReadLoop 4 0 d.rd
  let d := { d with rd := r }
  if val = 0x00 then pure (0, d)
  else if val = 0x02 then pure (7, d)
  else if val = 0x06 then pure (9, d)
  else if val = 0x0E then pure (12, d)
  else if val = 0x0F then pure (64, d)
  else .error .invalidBitHeader

/-- Method `Decoder.readTmestamp`. -/
def readTmestamp (d : Decoder) : Except Error (Nat × Decoder) := do
  let (nBits, d) ← bitsToRead d
  let finish (d : Decoder) (deltaDelta : Int) : Except Error (Nat × Decoder) :=
    let storedDelta := (d.storedDelta + toUint64 deltaDelta) % 2 ^ 64
    let storedTimestamp := (d.storedTimestamp + storedDelta) % 2 ^ 64
    pure (storedTimestamp,
      { d with storedDelta := storedDelta, storedTimestamp := storedTimestamp })
  if 0 < nBits then do
    let (deltaDeltaBits, r) ← ReadBits d.rd nBits
    let d := { d with rd := r }
    if nBits = 64 then
      if deltaDeltaBits = 0xFFFFFFFFFFFFFFFF then .error .eof
      else finish d (toInt64 deltaDeltaBits)
    else if 2 ^ (nBits - 1) < deltaDeltaBits then
      finish d (toInt64 ((deltaDeltaBits + 2 ^ 64 - 2 ^ nBits) % 2 ^ 64))
    else finish d (toInt64 deltaDeltaBits)
  else finish d 0

/-- Method `Decoder.readValue`; the result is `math.Float64bits` of the returned value. -/
def readValue (d : Decoder) : Except Error (Nat × Decoder) := do
  let (b, r) ← ReadBit d.rd
  let d := { d with rd := r }
  if b then do
    let (b, r) ← ReadBit d.rd
    let d := { d with rd := r }
    let window (d : Decoder) : Except Error (Nat × Decoder) := do
      let (valueBits, r) ←
        ReadBits d.rd (sub8 (sub8 64 d.storedLeadingZeros) d.storedTrailingZeros)
      let valueBits := (valueBits * 2 ^ d.storedTrailingZeros) % 2 ^ 64
      let d := { d with rd := r, storedValueBits := d.storedValueBits ^^^ valueBits }
      pure (d.storedValueBits, d)
    if b then do
      let (storedLeadingZeros, r) ← ReadBits d.rd 5
      let (significantBits, r) ← ReadBits r 6
      let significantBits := if significantBits = 0 then 64 else significantBits
      let lead := storedLeadingZeros % 256
      window { d with rd := r, storedLeadingZeros := lead,
                      storedTrailingZeros := sub8 (sub8 64 (significantBits % 256)) lead }
    else window d
  else pure (d.storedValueBits, d)

/-- Method `Decoder.readPoint`. -/
def readPoint (d : Decoder) : Except Error (Point × Decoder) := do
  let (t, d) ← readTmestamp d
  let (v, d) ← readValue d
  pure ({ Timestamp := t, Value := v }, d)

/-- Method `Decoder.DecodePoint`. -/
def DecodePoint (d : Decoder) : Except Error (Point × Decoder) :=
  if d.storedTimestamp = 0 then readFirst d else readPoint d

/-! ## Block facade -/

/-- The loop `for _, p := range points` over `EncodePoint`, as in `ExampleEncoder`. -/
def encodePoints : Encoder → List Point → Except Error Encoder
  | e, [] => .ok e
  | e, p :: ps => do
    let e ← EncodePoint e p
    encodePoints e ps

/-- The body of `ExampleEncoder` (example_test.go), which is the call sequence the spec
gives for `Marshal`: construct an encoder over an in-memory byte buffer, `EncodeHeader`,
`EncodePoint` for each sample in the given order, `Finish`, then the bytes of the
buffer. -/
def encodeBlock (t0 : Nat) (points : List Point) : Except Error (List Nat) := do
  let e ← EncodeHeader NewEncoder t0
  let e ← encodePoints e points
  let e ← Finish e
  pure (bytesOfBits e.wr)

/-- The loop `for { p, err := dec.DecodePoint(); ... }` of `ExampleDecoder`: `io.EOF`
ends the loop, any other error is returned, a sample is appended.  The Go loop is
unbounded; here `none` means the given number of iterations did not suffice. -/
def decodePoints : Nat → Decoder → List Point → Option (Except Error (List Point))
  | 0, _, _ => none
  | fuel + 1, d, points =>
    match DecodePoint d with
    | .error .eof => some (.ok points)
    | .error err => some (.error err)
    | .ok (p, d) => decodePoints fuel d (points ++ [p])

/-- The body of `ExampleDecoder` (example_test.go), which is the call sequence the spec
gives for `Unmarshal`: construct a decoder over the byte buffer, `DecodeHeader`, then
`DecodePoint` until `io.EOF`; an error of `DecodeHeader` or a non-EOF error of
`DecodePoint` is returned, otherwise the anchor and the accumulated samples.  `fuel`
bounds the number of loop iterations, and `none` means it did not suffice. -/
def decodeBlock (fuel : Nat) (data : List Nat) : Option (Except Error (Nat × List Point)) :=
  match DecodeHeader (NewDecoder (bitsOfBytes data)) with
  | .error err => some (.error err)
  | .ok (t0, d) =>
    match decodePoints fuel d [] with
    | none => none
    | some (.error err) => some (.error err)
    | some (.ok points) => some (.ok (t0, points))

/-! ## Notions used to state the properties -/

/-- The five timestamp buckets of the format (spec, section 4.2.2). -/
inductive Bucket where
  | A | B | C | D | E
  deriving DecidableEq, Repr

/-- Range of delta-of-deltas of a bucket, as tabulated in the spec. -/
def Bucket.inRange : Bucket → Int → Bool
  | .A, dod => decide (dod = 0)
  | .B, dod => decide (-63 ≤ dod ∧ dod ≤ 64)
  | .C, dod => decide (-255 ≤ dod ∧ dod ≤ 256)
  | .D, dod => decide (-2047 ≤ dod ∧ dod ≤ 2048)
  | .E, _ => true

/-- The first bucket, in the order A, B, C, D, E, whose range contains `dod`. -/
def bucketOf (dod : Int) : Bucket :=
  ([Bucket.A, Bucket.B, Bucket.C, Bucket.D].find? (fun b => b.inRange dod)).getD Bucket.E

/-- Selector bits of a bucket, most significant first. -/
def Bucket.selector : Bucket → List Bool
  | .A => [false]
  | .B => [true, false]
  | .C => [true, true, false]
  | .D => [true, true, true, false]
  | .E => [true, true, true, true]

/-- Payload width of a bucket. -/
def Bucket.width : Bucket → Nat
  | .A => 0
  | .B => 7
  | .C => 9
  | .D => 12
  | .E => 64

/-- Payload of a delta-of-delta in a field of `w` bits, as the spec words it: below 64 bits
a non-negative value is written as it is and a negative one as `(1 << w) + dod`; at 64
bits the signed value is reinterpreted as unsigned. -/
def payloadOf (w : Nat) (dod : Int) : Nat :=
  if w < 64 then (if 0 ≤ dod then dod.toNat else (2 ^ w + dod).toNat) else toUint64 dod

/-- Timestamp section of the wire format for a delta-of-delta. -/
def tsSection (dod : Int) : List Bool :=
  (bucketOf dod).selector ++ bitsOfNat (payloadOf (bucketOf dod).width dod) (bucketOf dod).width

/-- The `delta` computed by `writeTimestampDeltaDelta`. -/
def deltaOf (e : Encoder) (timestamp : Nat) : Nat :=
  (timestamp + 2 ^ 64 - e.storedTimestamp) % 2 ^ 64

/-- The `deltaDelta` computed by `writeTimestampDeltaDelta`. -/
def dodOf (e : Encoder) (timestamp : Nat) : Int :=
  wrapInt64 (toInt64 (deltaOf e timestamp) - toInt64 e.storedDelta)

/-- Value section of the wire format (spec, sections 4.2.3 and 6) for an XOR `xor`
when the stored window is `(lead, trail)`. -/
def valueSection (lead trail xor : Nat) : List Bool :=
  if xor = 0 then [false]
  else if lead ≤ numOfLeadingZeros xor ∧ trail ≤ numOfTrailingZeros xor then
    [true, false] ++ bitsOfNat (xor / 2 ^ trail) (64 - lead - trail)
  else
    [true, true] ++ bitsOfNat (numOfLeadingZeros xor) 5
      ++ bitsOfNat (64 - numOfLeadingZeros xor - numOfTrailingZeros xor) 6
      ++ bitsOfNat (xor / 2 ^ numOfTrailingZeros xor)
          (64 - numOfLeadingZeros xor - numOfTrailingZeros xor)

/-- The stored window `(lead, trail)` after a value whose XOR with the stored value is
`xor` has been written. -/
def windowAfter (lead trail xor : Nat) : Nat × Nat :=
  if xor = 0 then (lead, trail)
  else if lead ≤ numOfLeadingZeros xor ∧ trail ≤ numOfTrailingZeros xor then (lead, trail)
  else (numOfLeadingZeros xor, numOfTrailingZeros xor)

/-- Holds when writing the XOR `xor` against the stored window `(lead, trail)` puts no
leading-zero count of 32 or more into the 5-bit field of a new window descriptor. -/
def leadFits (lead trail xor : Nat) : Bool :=
  decide (xor = 0 ∨ (lead ≤ numOfLeadingZeros xor ∧ trail ≤ numOfTrailingZeros xor)
    ∨ numOfLeadingZeros xor < 32)

/-- Holds when `leadFits` holds at every value of the list, written in order from the
stored window `(lead, trail)` and the stored value `prev`. -/
def windowsFit : Nat → Nat → Nat → List Nat → Bool
  | _, _, _, [] => true
  | lead, trail, prev, v :: vs =>
    leadFits lead trail (prev ^^^ v)
      && windowsFit (windowAfter lead trail (prev ^^^ v)).1
           (windowAfter lead trail (prev ^^^ v)).2 v vs

/-- Holds when the samples of a block, written by a fresh encoder, never need a
leading-zero count of 32 or more in a new window descriptor. -/
def descriptorsFit : List Point → Bool
  | [] => true
  | p :: ps => windowsFit 127 0 p.Value (ps.map (fun q => q.Value))

/-- The relation between an encoder and a decoder that have processed the same samples:
equal stored timestamp, delta and value bits (all `uint64`), and equal stored windows
as soon as the encoder has left its initial leading-zero sentinel. -/
structure Synced (e : Encoder) (d : Decoder) : Prop where
  ts : d.storedTimestamp = e.storedTimestamp
  delta : d.storedDelta = e.storedDelta
  value : d.storedValueBits = e.storedValueBits
  window : 64 < e.storedLeadingZeros ∨
    (d.storedLeadingZeros = e.storedLeadingZeros ∧
      d.storedTrailingZeros = e.storedTrailingZeros)
  ts_lt : e.storedTimestamp < 2 ^ 64
  delta_lt : e.storedDelta < 2 ^ 64
  value_lt : e.storedValueBits < 2 ^ 64

/-- The two places where the format puts a finish marker: before any sample, 38
one-bits in the first-delta field; after a sample, the bucket-E selector `1111`
followed by a 64-bit payload of one-bits. -/
def AtFinishMarker (d : Decoder) : Prop :=
  (d.storedTimestamp = 0 ∧ ∃ tail, d.rd = List.replicate 38 true ++ tail) ∨
  (d.storedTimestamp ≠ 0 ∧
    ∃ tail, d.rd = [true, true, true, true] ++ List.replicate 64 true ++ tail)

/-- Holds when the timestamps, written in order by `writeTimestampDeltaDelta` from the
stored timestamp `prev` and the stored delta `delta`, have the delta-of-deltas `dd`,
`1 - dd`, `dd`, ... in turn. -/
def dodsAlternate : Nat → Nat → Int → List Nat → Bool
  | _, _, _, [] => true
  | prev, delta, dd, t :: ts =>
    decide (wrapInt64 (toInt64 ((t + 2 ^ 64 - prev) % 2 ^ 64) - toInt64 delta) = dd)
      && dodsAlternate t ((t + 2 ^ 64 - prev) % 2 ^ 64) (1 - dd) ts

deriving instance DecidableEq for Except

/-! # Theorems -/

/-! ## The bit stream -/

theorem bitsOfNat_length (u n : Nat) : (bitsOfNat u n).length = n := by
  induction n with
  | zero => rfl
  | succ n ih => simp [bitsOfNat, ih]

theorem natOfBits_append (acc : Nat) (l1 l2 : List Bool) :
    natOfBits acc (l1 ++ l2) = natOfBits (natOfBits acc l1) l2 := by
  induction l1 generalizing acc with
  | nil => rfl
  | cons b bs ih => simp [natOfBits, ih]

theorem natOfBits_bitsOfNat (acc u n : Nat) :
    natOfBits acc (bitsOfNat u n) = acc * 2 ^ n + u % 2 ^ n := by
  induction n generalizing acc with
  | zero => simp [bitsOfNat, natOfBits, Nat.mod_one]
  | succ n ih =>
    simp only [bitsOfNat, natOfBits, ih]
    have h1 : u % 2 ^ (n + 1) = 2 ^ n * (u / 2 ^ n % 2) + u % 2 ^ n := by
      rw [pow_succ, Nat.mod_mul, Nat.add_comm]
    rw [h1]
    rcases Nat.mod_two_eq_zero_or_one (u / 2 ^ n) with h | h
    · simp [h]; ring
    · simp [h]; ring

theorem natOfBits_lt (l : List Bool) (acc : Nat) :
    natOfBits acc l < (acc + 1) * 2 ^ l.length := by
  induction l generalizing acc with
  | nil => simp [natOfBits]
  | cons b bs ih =>
    simp only [natOfBits, List.length_cons]
    refine lt_of_lt_of_le (ih _) ?_
    rw [pow_succ, Nat.mul_comm (2 ^ bs.length) 2, ← Nat.mul_assoc]
    apply Nat.mul_le_mul_right
    cases b <;> simp <;> omega

theorem bitsOfNat_natOfBits (l : List Bool) (acc : Nat) :
    bitsOfNat (natOfBits acc l) l.length = l := by
  induction l generalizing acc with
  | nil => rfl
  | cons b bs ih =>
    simp only [natOfBits, List.length_cons, bitsOfNat]
    rw [ih]
    congr 1
    have h := natOfBits_bitsOfNat (2 * acc + b.toNat) (natOfBits 0 bs) bs.length
    rw [ih] at h
    have h2 : natOfBits (2 * acc + b.toNat) bs = (2 * acc + b.toNat) * 2 ^ bs.length + natOfBits 0 bs := by
      rw [h, Nat.mod_eq_of_lt]
      simpa using natOfBits_lt bs 0
    have h3 : natOfBits 0 bs < 2 ^ bs.length := by simpa using natOfBits_lt bs 0
    have h4 : natOfBits (2 * acc + b.toNat) bs / 2 ^ bs.length = 2 * acc + b.toNat := by
      rw [h2, Nat.add_div (by positivity), Nat.mul_div_cancel _ (by positivity),
        Nat.div_eq_of_lt h3, Nat.mul_mod_left, Nat.mod_eq_of_lt h3, if_neg (by omega)]
      simp
    simp only [h4]
    cases b
    · simp
    · simp; omega

/-- Reading `n` bits that were written from `u` returns the `n` low bits of `u`. -/
theorem ReadBits_bitsOfNat (u n : Nat) (rest : List Bool) (hn : n ≤ 64) :
    ReadBits (bitsOfNat u n ++ rest) n = .ok (u % 2 ^ n, rest) := by
  unfold ReadBits
  have hl := bitsOfNat_length u n
  rw [if_neg (by simp [hl])]
  have h1 : List.take n (bitsOfNat u n ++ rest) = bitsOfNat u n := by
    rw [List.take_append_of_le_length (by omega), List.take_of_length_le (by omega)]
  have h2 : List.drop n (bitsOfNat u n ++ rest) = rest := by
    rw [List.drop_append_of_le_length (by omega), List.drop_of_length_le (by omega)]; rfl
  rw [h1, h2, natOfBits_bitsOfNat]
  have : u % 2 ^ n < 2 ^ 64 := lt_of_lt_of_le (Nat.mod_lt _ (by positivity)) (Nat.pow_le_pow_right (by norm_num) hn)
  rw [Nat.zero_mul, Nat.zero_add, Nat.mod_eq_of_lt this]

/-- A byte-aligned bit stream survives the passage through the byte buffer. -/
theorem bitsOfBytes_bytesOfBits (n : Nat) (l : List Bool) (h : l.length = 8 * n) :
    bitsOfBytes (bytesOfBits l) = l := by
  induction n generalizing l with
  | zero =>
    have : l = [] := List.length_eq_zero.mp (by omega)
    subst this; rfl
  | succ n ih =>
    match l, h with
    | b7 :: b6 :: b5 :: b4 :: b3 :: b2 :: b1 :: b0 :: rest, h =>
      have hr : rest.length = 8 * n := by simp at h; omega
      simp only [bytesOfBits, bitsOfBytes, ih rest hr]
      have := bitsOfNat_natOfBits [b7, b6, b5, b4, b3, b2, b1, b0] 0
      simp only [List.length_cons, List.length_nil] at this
      rw [this]; rfl

/-! ## Leading and trailing zeros -/

theorem leadingZerosAux_le (x n : Nat) : leadingZerosAux x n ≤ n := by
  induction n with
  | zero => simp [leadingZerosAux]
  | succ n ih => simp only [leadingZerosAux]; split <;> omega

theorem leadingZerosAux_spec (x n : Nat) :
    x % 2 ^ n < 2 ^ (n - leadingZerosAux x n) := by
  induction n with
  | zero => simp [leadingZerosAux, Nat.mod_one]
  | succ n ih =>
    simp only [leadingZerosAux]
    split
    · exact Nat.mod_lt _ (by positivity)
    · rename_i h
      have h1 : x % 2 ^ (n + 1) = 2 ^ n * (x / 2 ^ n % 2) + x % 2 ^ n := by
        rw [pow_succ, Nat.mod_mul, Nat.add_comm]
      have h2 : x / 2 ^ n % 2 = 0 := by omega
      rw [h1, h2, Nat.mul_zero, Nat.zero_add, Nat.add_sub_add_right]
      exact ih

theorem trailingZerosAux_le (x n : Nat) : trailingZerosAux x n ≤ n := by
  induction n generalizing x with
  | zero => simp [trailingZerosAux]
  | succ n ih =>
    simp only [trailingZerosAux]; split
    · omega
    · have := ih (x / 2); omega

theorem trailingZerosAux_dvd (x n : Nat) : 2 ^ trailingZerosAux x n ∣ x := by
  induction n generalizing x with
  | zero => simp [trailingZerosAux]
  | succ n ih =>
    simp only [trailingZerosAux]; split
    · simp
    · rename_i h
      have h2 : x % 2 = 0 := by omega
      obtain ⟨c, hc⟩ := ih (x / 2)
      refine ⟨c, ?_⟩
      have h3 : x = 2 * (x / 2) := by omega
      rw [pow_succ, Nat.mul_comm (2 ^ _) 2, Nat.mul_assoc, ← hc]
      exact h3

theorem numOfLeadingZeros_spec (x : Nat) (hx : x < 2 ^ 64) :
    x < 2 ^ (64 - numOfLeadingZeros x) := by
  have := leadingZerosAux_spec x 64
  rwa [Nat.mod_eq_of_lt hx] at this

theorem numOfTrailingZeros_dvd (x : Nat) : 2 ^ numOfTrailingZeros x ∣ x :=
  trailingZerosAux_dvd x 64

theorem zeros_add_le (x : Nat) (h0 : x ≠ 0) (hx : x < 2 ^ 64) :
    numOfLeadingZeros x + numOfTrailingZeros x ≤ 63 := by
  have h1 := numOfLeadingZeros_spec x hx
  have h2 := Nat.le_of_dvd (Nat.pos_of_ne_zero h0) (numOfTrailingZeros_dvd x)
  have h3 : 2 ^ numOfTrailingZeros x < 2 ^ (64 - numOfLeadingZeros x) := lt_of_le_of_lt h2 h1
  have h4 := (Nat.pow_lt_pow_iff_right (by norm_num : 1 < 2)).mp h3
  omega

/-- A window at least as wide as the XOR holds every set bit of it. -/
theorem window_facts (x L T : Nat) (h0 : x ≠ 0) (hx : x < 2 ^ 64)
    (hL : L ≤ numOfLeadingZeros x) (hT : T ≤ numOfTrailingZeros x) :
    L + T ≤ 63 ∧ x / 2 ^ T < 2 ^ (64 - L - T) ∧ x / 2 ^ T * 2 ^ T = x := by
  have h1 := zeros_add_le x h0 hx
  refine ⟨by omega, ?_, ?_⟩
  · apply Nat.div_lt_of_lt_mul
    rw [← pow_add]
    have : T + (64 - L - T) = 64 - L := by omega
    rw [this]
    exact lt_of_lt_of_le (numOfLeadingZeros_spec x hx) (Nat.pow_le_pow_right (by norm_num) (by omega))
  · exact Nat.div_mul_cancel (dvd_trans (pow_dvd_pow 2 hT) (numOfTrailingZeros_dvd x))

/-! ## Timestamp sections: what the encoder writes, what the decoder reads back -/

theorem wrapInt64_range (i : Int) : -2 ^ 63 ≤ wrapInt64 i ∧ wrapInt64 i < 2 ^ 63 := by
  unfold wrapInt64 toInt64 toUint64
  split <;> omega

theorem bucketOf_cases (dod : Int) :
    (dod = 0 ∧ bucketOf dod = .A) ∨
    (dod ≠ 0 ∧ -63 ≤ dod ∧ dod ≤ 64 ∧ bucketOf dod = .B) ∨
    (¬ (-63 ≤ dod ∧ dod ≤ 64) ∧ -255 ≤ dod ∧ dod ≤ 256 ∧ bucketOf dod = .C) ∨
    (¬ (-255 ≤ dod ∧ dod ≤ 256) ∧ -2047 ≤ dod ∧ dod ≤ 2048 ∧ bucketOf dod = .D) ∨
    (¬ (-2047 ≤ dod ∧ dod ≤ 2048) ∧ bucketOf dod = .E) := by
  unfold bucketOf
  by_cases h0 : dod = 0
  · left; subst h0; simp [List.find?, Bucket.inRange]
  by_cases h1 : -63 ≤ dod ∧ dod ≤ 64
  · right; left; simp [List.find?, Bucket.inRange, h0, h1]
  by_cases h2 : -255 ≤ dod ∧ dod ≤ 256
  · right; right; left; simp [List.find?, Bucket.inRange, h0, h1, h2]
  by_cases h3 : -2047 ≤ dod ∧ dod ≤ 2048
  · right; right; right; left; simp [List.find?, Bucket.inRange, h0, h1, h2, h3]
  · right; right; right; right; simp [List.find?, Bucket.inRange, h0, h1, h2, h3]

theorem WriteBits_eq (w : List Bool) (u nbits : Nat) (h : nbits ≤ 64) :
    WriteBits w u nbits = .ok (w ++ bitsOfNat u nbits) := by
  unfold WriteBits; rw [if_pos h]

theorem writeInt64Bits_eq (w : List Bool) (dd : Int) (nbits : Nat)
    (hn : nbits = 7 ∨ nbits = 9 ∨ nbits = 12 ∨ nbits = 64)
    (hlo : -2 ^ 63 ≤ dd ∧ (nbits < 64 → -2 ^ nbits < dd)) (hhi : dd < 2 ^ 63) :
    writeInt64Bits w dd nbits = .ok (w ++ bitsOfNat (payloadOf nbits dd) nbits) := by
  unfold writeInt64Bits payloadOf
  dsimp only
  rw [WriteBits_eq _ _ _ (by omega)]
  congr 3
  by_cases hnb : nbits < 64
  · rw [if_pos hnb]
    by_cases h0 : 0 ≤ dd
    · rw [if_pos (Or.inl h0), if_pos h0]
      unfold toUint64; omega
    · rw [if_neg (by omega), if_neg h0]
      have h2 := hlo.2 hnb
      rcases hn with h | h | h | h <;> subst h <;>
        (unfold toUint64 wrapInt64 toInt64 toUint64; split <;> omega)
  · rw [if_neg hnb, if_pos (Or.inr (by omega))]

/-- Closed form of `writeTimestampDeltaDelta`: it appends the timestamp section of the
delta-of-delta and stores the timestamp and the delta. -/
theorem writeTimestampDeltaDelta_eq (e : Encoder) (ts : Nat) :
    writeTimestampDeltaDelta e ts =
      .ok { e with wr := e.wr ++ tsSection (dodOf e ts), storedTimestamp := ts,
                   storedDelta := deltaOf e ts } := by
  have hr := wrapInt64_range (toInt64 (deltaOf e ts) - toInt64 e.storedDelta)
  unfold writeTimestampDeltaDelta tsSection
  dsimp only
  unfold dodOf
  unfold deltaOf at *
  generalize wrapInt64 (toInt64 ((ts + 2 ^ 64 - e.storedTimestamp) % 2 ^ 64) - toInt64 e.storedDelta) = dd at *
  generalize (ts + 2 ^ 64 - e.storedTimestamp) % 2 ^ 64 = delta at *
  rcases bucketOf_cases dd with ⟨h, hb⟩ | ⟨h0, h1, h2, hb⟩ | ⟨h0, h1, h2, hb⟩ |
      ⟨h0, h1, h2, hb⟩ | ⟨h0, hb⟩
  all_goals rw [hb]
  · simp [h, WriteBit, Bucket.selector, Bucket.width, bitsOfNat, bind, Except.bind, pure, Except.pure]
  · rw [if_neg h0, if_pos ⟨h1, h2⟩]
    simp only [bind, Except.bind, pure, Except.pure, WriteBits_eq _ _ 2 (by norm_num)]
    rw [writeInt64Bits_eq _ dd 7 (by simp) ⟨hr.1, fun _ => by omega⟩ hr.2]
    simp [Bucket.selector, Bucket.width, bitsOfNat]
  · rw [if_neg (by omega), if_neg h0, if_pos ⟨h1, h2⟩]
    simp only [bind, Except.bind, pure, Except.pure, WriteBits_eq _ _ 3 (by norm_num)]
    rw [writeInt64Bits_eq _ dd 9 (by simp) ⟨hr.1, fun _ => by omega⟩ hr.2]
    simp [Bucket.selector, Bucket.width, bitsOfNat]
  · rw [if_neg (by omega), if_neg (by omega), if_neg h0, if_pos ⟨h1, h2⟩]
    simp only [bind, Except.bind, pure, Except.pure, WriteBits_eq _ _ 4 (by norm_num)]
    rw [writeInt64Bits_eq _ dd 12 (by simp) ⟨hr.1, fun _ => by omega⟩ hr.2]
    simp [Bucket.selector, Bucket.width, bitsOfNat]
  · rw [if_neg (by omega), if_neg (by omega), if_neg (by omega), if_neg h0]
    simp only [bind, Except.bind, pure, Except.pure, WriteBits_eq _ _ 4 (by norm_num)]
    rw [writeInt64Bits_eq _ dd 64 (by simp) ⟨hr.1, fun h => by omega⟩ hr.2]
    simp [Bucket.selector, Bucket.width, bitsOfNat]

theorem payloadOf_lt (w : Nat) (dd : Int)
    (hn : w = 7 ∨ w = 9 ∨ w = 12 ∨ w = 64)
    (hlo : w < 64 → -2 ^ w < dd) (hhi : w < 64 → dd ≤ 2 ^ (w - 1)) :
    payloadOf w dd < 2 ^ w := by
  unfold payloadOf
  rcases hn with h | h | h | h <;> subst h
  · have := hlo (by norm_num); have := hhi (by norm_num); simp only [Nat.reduceLT, if_true]; split <;> omega
  · have := hlo (by norm_num); have := hhi (by norm_num); simp only [Nat.reduceLT, if_true]; split <;> omega
  · have := hlo (by norm_num); have := hhi (by norm_num); simp only [Nat.reduceLT, if_true]; split <;> omega
  · simp only [Nat.lt_irrefl, if_false]; unfold toUint64; omega

theorem bitsToRead_selector (d : Decoder) (b : Bucket) (tail : List Bool) :
    bitsToRead { d with rd := b.selector ++ tail } = .ok (b.width, { d with rd := tail }) := by
  cases b <;>
    simp [bitsToRead, bitsToReadLoop, ReadBit, Bucket.selector, Bucket.width,
      bind, Except.bind, pure, Except.pure]

theorem decode_payload (w : Nat) (dd : Int) (hw : w = 7 ∨ w = 9 ∨ w = 12)
    (hlo : -2 ^ (w - 1) < dd) (hhi : dd ≤ 2 ^ (w - 1)) :
    (if 2 ^ (w - 1) < payloadOf w dd
      then toInt64 ((payloadOf w dd + 2 ^ 64 - 2 ^ w) % 2 ^ 64)
      else toInt64 (payloadOf w dd)) = dd := by
  unfold payloadOf toInt64
  rcases hw with h | h | h <;> subst h <;> norm_num at hlo hhi ⊢ <;> split_ifs <;> omega

/-- Reading back a timestamp section adds the delta-of-delta to the stored delta and the new
delta to the stored timestamp, and never reports end-of-block. -/
theorem readTmestamp_tsSection (d : Decoder) (dd : Int) (rest : List Bool)
    (hrd : d.rd = tsSection dd ++ rest) (hlo : -2 ^ 63 ≤ dd) (hhi : dd < 2 ^ 63) :
    readTmestamp d =
      .ok ((d.storedTimestamp + (d.storedDelta + toUint64 dd) % 2 ^ 64) % 2 ^ 64,
        { d with rd := rest,
                 storedDelta := (d.storedDelta + toUint64 dd) % 2 ^ 64,
                 storedTimestamp :=
                   (d.storedTimestamp + (d.storedDelta + toUint64 dd) % 2 ^ 64) % 2 ^ 64 }) := by
  obtain ⟨rd, ht, st, sd, sl, sz, sv⟩ := d
  simp only at hrd
  subst hrd
  unfold tsSection
  rw [List.append_assoc]
  unfold readTmestamp
  have hsel := bitsToRead_selector ⟨[], ht, st, sd, sl, sz, sv⟩ (bucketOf dd)
    (bitsOfNat (payloadOf (bucketOf dd).width dd) (bucketOf dd).width ++ rest)
  simp only at hsel
  simp only [bind, Except.bind, hsel]
  rcases bucketOf_cases dd with ⟨h, hb⟩ | ⟨h0, h1, h2, hb⟩ | ⟨h0, h1, h2, hb⟩ |
      ⟨h0, h1, h2, hb⟩ | ⟨h0, hb⟩
  all_goals rw [hb]
  · subst h
    simp [Bucket.width, pure, Except.pure, toUint64, bitsOfNat]
  · have hp := payloadOf_lt 7 dd (by simp) (fun _ => by omega) (fun _ => by omega)
    have hd := decode_payload 7 dd (by simp) (by norm_num; omega) (by norm_num; omega)
    simp only [Bucket.width, ReadBits_bitsOfNat _ 7 _ (by norm_num), Nat.mod_eq_of_lt hp]
    rw [if_pos (by norm_num), if_neg (by norm_num)]
    split
    · rename_i h; rw [if_pos h] at hd; rw [hd]; rfl
    · rename_i h; rw [if_neg h] at hd; rw [hd]; rfl
  · have hp := payloadOf_lt 9 dd (by simp) (fun _ => by omega) (fun _ => by omega)
    have hd := decode_payload 9 dd (by simp) (by norm_num; omega) (by norm_num; omega)
    simp only [Bucket.width, ReadBits_bitsOfNat _ 9 _ (by norm_num), Nat.mod_eq_of_lt hp]
    rw [if_pos (by norm_num), if_neg (by norm_num)]
    split
    · rename_i h; rw [if_pos h] at hd; rw [hd]; rfl
    · rename_i h; rw [if_neg h] at hd; rw [hd]; rfl
  · have hp := payloadOf_lt 12 dd (by simp) (fun _ => by omega) (fun _ => by omega)
    have hd := decode_payload 12 dd (by simp) (by norm_num; omega) (by norm_num; omega)
    simp only [Bucket.width, ReadBits_bitsOfNat _ 12 _ (by norm_num), Nat.mod_eq_of_lt hp]
    rw [if_pos (by norm_num), if_neg (by norm_num)]
    split
    · rename_i h; rw [if_pos h] at hd; rw [hd]; rfl
    · rename_i h; rw [if_neg h] at hd; rw [hd]; rfl
  · have hp := payloadOf_lt 64 dd (by simp) (fun h => by omega) (fun h => by omega)
    simp only [Bucket.width, ReadBits_bitsOfNat _ 64 _ (by norm_num), Nat.mod_eq_of_lt hp]
    have h1 : payloadOf 64 dd = toUint64 dd := by simp [payloadOf]
    have h2 : toUint64 dd ≠ 18446744073709551615 := by unfold toUint64; omega
    have h3 : toInt64 (toUint64 dd) = dd := by unfold toInt64 toUint64; split <;> omega
    rw [if_pos (by norm_num), if_pos trivial, h1, if_neg h2, h3]; rfl

/-! ## Value sections: what the encoder writes, what the decoder reads back -/

theorem sub8_window (L T : Nat) (h : L + T ≤ 64) : sub8 (sub8 64 L) T = 64 - L - T := by
  unfold sub8; omega

/-- Closed form of `writeValueXor` on 64-bit patterns: it appends the value section of the
XOR and stores the value and the window. -/
theorem writeValueXor_eq (e : Encoder) (v : Nat) (hsv : e.storedValueBits < 2 ^ 64)
    (hv : v < 2 ^ 64) :
    writeValueXor e v =
      .ok { e with
        wr := e.wr ++ valueSection e.storedLeadingZeros e.storedTrailingZeros
                (e.storedValueBits ^^^ v),
        storedValueBits := v,
        storedLeadingZeros :=
          (windowAfter e.storedLeadingZeros e.storedTrailingZeros (e.storedValueBits ^^^ v)).1,
        storedTrailingZeros :=
          (windowAfter e.storedLeadingZeros e.storedTrailingZeros (e.storedValueBits ^^^ v)).2 } := by
  have hx : e.storedValueBits ^^^ v < 2 ^ 64 := Nat.xor_lt_two_pow hsv hv
  unfold writeValueXor valueSection windowAfter
  dsimp only
  generalize e.storedValueBits ^^^ v = x at *
  by_cases h0 : x = 0
  · simp [h0, WriteBit, bind, Except.bind, pure, Except.pure]
  · rw [if_neg h0, if_neg h0, if_neg h0]
    by_cases hc : e.storedLeadingZeros ≤ numOfLeadingZeros x ∧
        e.storedTrailingZeros ≤ numOfTrailingZeros x
    · have hw := window_facts x _ _ h0 hx hc.1 hc.2
      simp only [bind, Except.bind, pure, Except.pure, WriteBit]
      rw [if_pos hc, if_pos hc, if_pos hc, sub8_window _ _ (by omega),
        WriteBits_eq _ _ _ (by omega)]
      simp
    · have hw := window_facts x _ _ h0 hx (le_refl _) (le_refl _)
      simp only [bind, Except.bind, pure, Except.pure, WriteBit]
      rw [if_neg hc, if_neg hc, if_neg hc, sub8_window _ _ (by omega)]
      simp only [WriteBits_eq _ _ 5 (by norm_num), WriteBits_eq _ _ 6 (by norm_num),
        WriteBits_eq _ _ (64 - numOfLeadingZeros x - numOfTrailingZeros x) (by omega)]
      simp

theorem readValue_same (d : Decoder) (rest : List Bool) (hrd : d.rd = false :: rest) :
    readValue d = .ok (d.storedValueBits, { d with rd := rest }) := by
  obtain ⟨rd, ht, st, sd, sl, sz, sv⟩ := d
  simp only at hrd
  subst hrd
  simp [readValue, ReadBit, bind, Except.bind, pure, Except.pure]

theorem readValue_reuse (d : Decoder) (x : Nat) (rest : List Bool)
    (hrd : d.rd = [true, false] ++
        bitsOfNat x (64 - d.storedLeadingZeros - d.storedTrailingZeros) ++ rest)
    (hw : d.storedLeadingZeros + d.storedTrailingZeros ≤ 63)
    (hx : x < 2 ^ (64 - d.storedLeadingZeros - d.storedTrailingZeros)) :
    readValue d =
      .ok (d.storedValueBits ^^^ (x * 2 ^ d.storedTrailingZeros),
        { d with rd := rest,
                 storedValueBits := d.storedValueBits ^^^ (x * 2 ^ d.storedTrailingZeros) }) := by
  obtain ⟨rd, ht, st, sd, sl, sz, sv⟩ := d
  simp only at hrd hw hx
  subst hrd
  have h1 : x * 2 ^ sz < 2 ^ 64 := by
    calc x * 2 ^ sz
        < 2 ^ (64 - sl - sz) * 2 ^ sz := Nat.mul_lt_mul_of_pos_right hx (by positivity)
      _ = 2 ^ (64 - sl) := by rw [← pow_add]; congr 1; omega
      _ ≤ 2 ^ 64 := Nat.pow_le_pow_right (by norm_num) (by omega)
  simp only [readValue, ReadBit, bind, Except.bind, pure, Except.pure, List.cons_append,
    List.nil_append, if_true, Bool.false_eq_true, if_false,
    sub8_window _ _ (show sl + sz ≤ 64 by omega),
    ReadBits_bitsOfNat _ _ _ (show 64 - sl - sz ≤ 64 by omega),
    Nat.mod_eq_of_lt hx, Nat.mod_eq_of_lt h1]

theorem readValue_new (d : Decoder) (lead trail x : Nat) (rest : List Bool)
    (hrd : d.rd = [true, true] ++ bitsOfNat lead 5
        ++ bitsOfNat (64 - lead - trail) 6 ++ bitsOfNat x (64 - lead - trail) ++ rest)
    (hl : lead < 32) (hw : lead + trail ≤ 63) (hx : x < 2 ^ (64 - lead - trail)) :
    readValue d =
      .ok (d.storedValueBits ^^^ (x * 2 ^ trail),
        { d with rd := rest, storedLeadingZeros := lead, storedTrailingZeros := trail,
                 storedValueBits := d.storedValueBits ^^^ (x * 2 ^ trail) }) := by
  obtain ⟨rd, ht, st, sd, sl, sz, sv⟩ := d
  simp only at hrd
  subst hrd
  have h1 : x * 2 ^ trail < 2 ^ 64 := by
    calc x * 2 ^ trail
        < 2 ^ (64 - lead - trail) * 2 ^ trail :=
          Nat.mul_lt_mul_of_pos_right hx (by positivity)
      _ = 2 ^ (64 - lead) := by rw [← pow_add]; congr 1; omega
      _ ≤ 2 ^ 64 := Nat.pow_le_pow_right (by norm_num) (by omega)
  have h5 : lead % 2 ^ 5 = lead := Nat.mod_eq_of_lt (by norm_num; omega)
  have h6 : lead % 256 = lead := Nat.mod_eq_of_lt (by omega)
  have h8 : sub8 (sub8 64 ((if (64 - lead - trail) % 2 ^ 6 = 0 then 64
      else (64 - lead - trail) % 2 ^ 6) % 256)) lead = trail := by
    unfold sub8; norm_num; split <;> omega
  simp only [readValue, ReadBit, bind, Except.bind, pure, Except.pure, List.cons_append,
    List.nil_append, if_true, List.append_assoc,
    ReadBits_bitsOfNat _ 5 _ (by norm_num), ReadBits_bitsOfNat _ 6 _ (by norm_num), h5, h8, h6,
    sub8_window _ _ (show lead + trail ≤ 64 by omega),
    ReadBits_bitsOfNat _ _ _ (show 64 - lead - trail ≤ 64 by omega),
    Nat.mod_eq_of_lt hx, Nat.mod_eq_of_lt h1]


/-! ## Encoder and decoder stay in step -/

theorem numOfLeadingZeros_le (x : Nat) : numOfLeadingZeros x ≤ 64 := leadingZerosAux_le x 64

theorem dodOf_range (e : Encoder) (ts : Nat) : -2 ^ 63 ≤ dodOf e ts ∧ dodOf e ts < 2 ^ 63 :=
  wrapInt64_range _

/-- Once in step, encoder and decoder stay in step over a timestamp section. -/
theorem readTmestamp_sync (e : Encoder) (d : Decoder) (ts : Nat) (rest : List Bool)
    (hs : Synced e d) (hts : ts < 2 ^ 64)
    (hrd : d.rd = tsSection (dodOf e ts) ++ rest) :
    ∃ d1, readTmestamp d = .ok (ts, d1) ∧ d1.rd = rest ∧
      ∀ e1, writeTimestampDeltaDelta e ts = .ok e1 → Synced e1 d1 := by
  have hr := dodOf_range e ts
  have key : (e.storedDelta + toUint64 (dodOf e ts)) % 2 ^ 64 = deltaOf e ts := by
    have h1 := hs.delta_lt
    have h2 : deltaOf e ts < 2 ^ 64 := Nat.mod_lt _ (by positivity)
    unfold dodOf
    generalize deltaOf e ts = a at *
    generalize e.storedDelta = b at *
    unfold toUint64 wrapInt64 toInt64 toUint64
    split <;> split <;> split <;> omega
  have key2 : (e.storedTimestamp + deltaOf e ts) % 2 ^ 64 = ts := by
    have h1 := hs.ts_lt
    unfold deltaOf; omega
  rw [readTmestamp_tsSection d _ rest hrd hr.1 hr.2, hs.ts, hs.delta, key, key2]
  refine ⟨_, rfl, rfl, ?_⟩
  intro e1 he1
  rw [writeTimestampDeltaDelta_eq] at he1
  cases he1
  exact ⟨rfl, rfl, hs.value, hs.window, hts, Nat.mod_lt _ (by positivity), hs.value_lt⟩

/-- Once in step, encoder and decoder stay in step over a value section whose window
descriptor fits. -/
theorem readValue_sync (e : Encoder) (d : Decoder) (v : Nat) (rest : List Bool)
    (hs : Synced e d) (hv : v < 2 ^ 64)
    (hfit : leadFits e.storedLeadingZeros e.storedTrailingZeros (e.storedValueBits ^^^ v) = true)
    (hrd : d.rd = valueSection e.storedLeadingZeros e.storedTrailingZeros
      (e.storedValueBits ^^^ v) ++ rest) :
    ∃ d1, readValue d = .ok (v, d1) ∧ d1.rd = rest ∧
      ∀ e1, writeValueXor e v = .ok e1 → Synced e1 d1 := by
  have hx : e.storedValueBits ^^^ v < 2 ^ 64 := Nat.xor_lt_two_pow hs.value_lt hv
  have hback : e.storedValueBits ^^^ (e.storedValueBits ^^^ v) = v := Nat.xor_cancel_left _ _
  have hweq := writeValueXor_eq e v hs.value_lt hv
  unfold leadFits at hfit
  unfold valueSection at hrd
  unfold windowAfter at hweq
  generalize e.storedValueBits ^^^ v = x at *
  by_cases h0 : x = 0
  · rw [if_pos h0] at hrd
    subst h0
    rw [readValue_same d rest hrd, hs.value]
    simp only [Nat.xor_zero] at hback
    refine ⟨_, by rw [hback], rfl, ?_⟩
    intro e1 he1
    rw [hweq] at he1; cases he1
    exact ⟨hs.ts, hs.delta, by rw [← hback], hs.window, hs.ts_lt, hs.delta_lt, hv⟩
  · rw [if_neg h0] at hrd
    rw [if_neg h0] at hweq
    by_cases hc : e.storedLeadingZeros ≤ numOfLeadingZeros x ∧
        e.storedTrailingZeros ≤ numOfTrailingZeros x
    · rw [if_pos hc] at hrd
      rw [if_pos hc] at hweq
      have hw := window_facts x _ _ h0 hx hc.1 hc.2
      have hwin : d.storedLeadingZeros = e.storedLeadingZeros ∧
          d.storedTrailingZeros = e.storedTrailingZeros := by
        rcases hs.window with h | h
        · have := numOfLeadingZeros_le x; omega
        · exact h
      rw [← hwin.1, ← hwin.2] at hrd hw
      rw [readValue_reuse d _ rest hrd hw.1 hw.2.1, hw.2.2, hs.value, hback]
      refine ⟨_, rfl, rfl, ?_⟩
      intro e1 he1
      rw [hweq] at he1; cases he1
      exact ⟨hs.ts, hs.delta, rfl, Or.inr hwin, hs.ts_lt, hs.delta_lt, hv⟩
    · rw [if_neg hc] at hrd
      rw [if_neg hc] at hweq
      have hw := window_facts x _ _ h0 hx (le_refl _) (le_refl _)
      have hl : numOfLeadingZeros x < 32 := by
        simp only [decide_eq_true_eq] at hfit
        rcases hfit with h | h | h
        · exact absurd h h0
        · exact absurd h hc
        · exact h
      rw [readValue_new d _ _ _ rest hrd hl hw.1 hw.2.1, hw.2.2, hs.value, hback]
      refine ⟨_, rfl, rfl, ?_⟩
      intro e1 he1
      rw [hweq] at he1; cases he1
      exact ⟨hs.ts, hs.delta, rfl, Or.inr ⟨rfl, rfl⟩, hs.ts_lt, hs.delta_lt, hv⟩


/-- One sample after the first: `EncodePoint` appends a timestamp section and a value
section, and `DecodePoint` on a decoder in step returns the sample and stays in step. -/
theorem point_step (e : Encoder) (p : Point) (hnz : e.storedTimestamp ≠ 0)
    (hsv : e.storedValueBits < 2 ^ 64) (hts : p.Timestamp < 2 ^ 64) (hv : p.Value < 2 ^ 64)
    (hfit : leadFits e.storedLeadingZeros e.storedTrailingZeros
      (e.storedValueBits ^^^ p.Value) = true) :
    ∃ e1, EncodePoint e p = .ok e1 ∧
      e1.wr = e.wr ++ (tsSection (dodOf e p.Timestamp) ++
        valueSection e.storedLeadingZeros e.storedTrailingZeros (e.storedValueBits ^^^ p.Value)) ∧
      e1.storedTimestamp = p.Timestamp ∧ e1.storedValueBits = p.Value ∧
      e1.storedLeadingZeros =
        (windowAfter e.storedLeadingZeros e.storedTrailingZeros (e.storedValueBits ^^^ p.Value)).1 ∧
      e1.storedTrailingZeros =
        (windowAfter e.storedLeadingZeros e.storedTrailingZeros (e.storedValueBits ^^^ p.Value)).2 ∧
      ∀ (d : Decoder) (rest : List Bool), Synced e d →
        d.rd = (tsSection (dodOf e p.Timestamp) ++
          valueSection e.storedLeadingZeros e.storedTrailingZeros
            (e.storedValueBits ^^^ p.Value)) ++ rest →
        ∃ d1, DecodePoint d = .ok (p, d1) ∧ d1.rd = rest ∧ Synced e1 d1 := by
  have h1 := writeTimestampDeltaDelta_eq e p.Timestamp
  have h2 := writeValueXor_eq
    { e with wr := e.wr ++ tsSection (dodOf e p.Timestamp), storedTimestamp := p.Timestamp,
             storedDelta := deltaOf e p.Timestamp } p.Value hsv hv
  simp only at h2
  have hwp : EncodePoint e p = writeValueXor
      { e with wr := e.wr ++ tsSection (dodOf e p.Timestamp), storedTimestamp := p.Timestamp,
               storedDelta := deltaOf e p.Timestamp } p.Value := by
    unfold EncodePoint writePoint
    rw [if_neg hnz]
    simp only [bind, Except.bind, h1]
  refine ⟨_, hwp.trans h2, by simp, rfl, rfl, rfl, rfl, ?_⟩
  intro d rest hs hrd
  rw [List.append_assoc] at hrd
  obtain ⟨d1, hd1, hrd1, hs1⟩ := readTmestamp_sync e d p.Timestamp _ hs hts hrd
  have hs1' := hs1 _ h1
  obtain ⟨d2, hd2, hrd2, hs2⟩ := readValue_sync _ d1 p.Value rest hs1' hv hfit hrd1
  have hs2' := hs2 _ h2
  refine ⟨d2, ?_, hrd2, hs2'⟩
  have hdnz : d.storedTimestamp ≠ 0 := by rw [hs.ts]; exact hnz
  unfold DecodePoint readPoint
  rw [if_neg hdnz]
  simp only [bind, Except.bind, hd1, hd2, pure, Except.pure]

/-- The samples after the first, by induction on the list. -/
theorem points_roundtrip (ps : List Point) :
    ∀ (e : Encoder), e.storedTimestamp ≠ 0 → e.storedValueBits < 2 ^ 64 →
      (∀ p ∈ ps, p.Timestamp ≠ 0 ∧ p.Timestamp < 2 ^ 64 ∧ p.Value < 2 ^ 64) →
      windowsFit e.storedLeadingZeros e.storedTrailingZeros e.storedValueBits
        (ps.map (fun q => q.Value)) = true →
      ∃ e1 bits, encodePoints e ps = .ok e1 ∧ e1.wr = e.wr ++ bits ∧ e1.storedTimestamp ≠ 0 ∧
        ∀ (d : Decoder) (rest : List Bool), Synced e d → d.rd = bits ++ rest →
          ∃ d1, d1.rd = rest ∧ Synced e1 d1 ∧
            ∀ fuel acc, decodePoints (fuel + ps.length) d acc = decodePoints fuel d1 (acc ++ ps) := by
  induction ps with
  | nil =>
    intro e hnz _ _ _
    exact ⟨e, [], rfl, by simp, hnz, fun d rest hs hrd => ⟨d, by simpa using hrd, hs, by simp⟩⟩
  | cons p ps ih =>
    intro e hnz hsv hps hfit
    have hp := hps p (List.mem_cons_self _ _)
    simp only [List.map_cons, windowsFit, Bool.and_eq_true] at hfit
    obtain ⟨e1, hE, hwr, hts1, hsv1, hl1, hz1, hdec⟩ :=
      point_step e p hnz hsv hp.2.1 hp.2.2 hfit.1
    have hfit2 := hfit.2
    rw [← hl1, ← hz1, ← hsv1] at hfit2
    obtain ⟨e2, bits, hE2, hwr2, hnz2, hdec2⟩ :=
      ih e1 (by rw [hts1]; exact hp.1) (by rw [hsv1]; exact hp.2.2)
        (fun q hq => hps q (List.mem_cons_of_mem _ hq)) hfit2
    refine ⟨e2, (tsSection (dodOf e p.Timestamp) ++
        valueSection e.storedLeadingZeros e.storedTrailingZeros
          (e.storedValueBits ^^^ p.Value)) ++ bits, ?_,
      by rw [hwr2, hwr, List.append_assoc], hnz2, ?_⟩
    · simp only [encodePoints, bind, Except.bind, hE, hE2]
    · intro d rest hs hrd
      rw [List.append_assoc] at hrd
      obtain ⟨d1, hd1, hrd1, hs1⟩ := hdec d _ hs hrd
      obtain ⟨d2, hrd2, hs2, hloop⟩ := hdec2 d1 rest hs1 hrd1
      refine ⟨d2, hrd2, hs2, ?_⟩
      intro fuel acc
      have : fuel + (p :: ps).length = (fuel + ps.length) + 1 := by simp [Nat.add_assoc]
      rw [this]
      simp only [decodePoints, hd1]
      rw [hloop]
      simp


/-! ## Header, first sample and finish markers -/

theorem EncodeHeader_eq (e : Encoder) (t0 : Nat) :
    EncodeHeader e t0 = .ok { e with wr := e.wr ++ bitsOfNat t0 64, headerTimestamp := t0 } := by
  simp [EncodeHeader, WriteBits, bind, Except.bind, pure, Except.pure]

theorem DecodeHeader_eq (d : Decoder) (t0 : Nat) (rest : List Bool) (ht0 : t0 < 2 ^ 64)
    (hrd : d.rd = bitsOfNat t0 64 ++ rest) :
    DecodeHeader d = .ok (t0, { d with rd := rest, headerTimestamp := t0 }) := by
  unfold DecodeHeader
  simp only [bind, Except.bind, pure, Except.pure, hrd, ReadBits_bitsOfNat _ 64 _ (le_refl _),
    Nat.mod_eq_of_lt ht0]

theorem writeFirst_eq (e : Encoder) (p : Point) :
    writeFirst e p = .ok { e with
      wr := e.wr ++ (bitsOfNat ((p.Timestamp + 2 ^ 64 - e.headerTimestamp) % 2 ^ 64) 38
        ++ bitsOfNat p.Value 64),
      storedTimestamp := p.Timestamp,
      storedDelta := (p.Timestamp + 2 ^ 64 - e.headerTimestamp) % 2 ^ 64,
      storedValueBits := p.Value } := by
  unfold writeFirst
  simp only [bind, Except.bind, pure, Except.pure, nBitsFirstDelta,
    WriteBits_eq _ _ 38 (by norm_num), WriteBits_eq _ _ 64 (by norm_num), List.append_assoc]

theorem readFirst_eq (d : Decoder) (delta v : Nat) (rest : List Bool)
    (hdelta : delta < 2 ^ 38 - 1) (hv : v < 2 ^ 64)
    (hrd : d.rd = (bitsOfNat delta 38 ++ bitsOfNat v 64) ++ rest) :
    readFirst d = .ok ({ Timestamp := (d.headerTimestamp + delta) % 2 ^ 64, Value := v },
      { d with rd := rest, storedDelta := delta,
               storedTimestamp := (d.headerTimestamp + delta) % 2 ^ 64,
               storedValueBits := v }) := by
  unfold readFirst
  rw [List.append_assoc] at hrd
  have h1 : delta % 2 ^ 38 = delta := Nat.mod_eq_of_lt (by omega)
  have h2 : ¬ delta = 2 ^ 38 - 1 := by omega
  simp only [bind, Except.bind, pure, Except.pure, nBitsFirstDelta, hrd,
    ReadBits_bitsOfNat _ 38 _ (by norm_num), ReadBits_bitsOfNat _ 64 _ (by norm_num),
    h1, if_neg h2, Nat.mod_eq_of_lt hv]

/-- The first sample: `EncodePoint` appends the 38-bit delta and the raw value, and
`DecodePoint` on a fresh decoder returns the sample; encoder and decoder are then in step. -/
theorem first_step (e : Encoder) (p : Point) (hz : e.storedTimestamp = 0)
    (hh : e.headerTimestamp < 2 ^ 64) (hts : p.Timestamp < 2 ^ 64) (hv : p.Value < 2 ^ 64)
    (hdelta : (p.Timestamp + 2 ^ 64 - e.headerTimestamp) % 2 ^ 64 < 2 ^ 38 - 1) :
    ∃ e1, EncodePoint e p = .ok e1 ∧
      e1.wr = e.wr ++ (bitsOfNat ((p.Timestamp + 2 ^ 64 - e.headerTimestamp) % 2 ^ 64) 38
        ++ bitsOfNat p.Value 64) ∧
      e1.storedTimestamp = p.Timestamp ∧ e1.storedValueBits = p.Value ∧
      e1.storedLeadingZeros = e.storedLeadingZeros ∧
      e1.storedTrailingZeros = e.storedTrailingZeros ∧
      ∀ (d : Decoder) (rest : List Bool), d.storedTimestamp = 0 →
        d.headerTimestamp = e.headerTimestamp →
        (64 < e.storedLeadingZeros ∨ (d.storedLeadingZeros = e.storedLeadingZeros ∧
          d.storedTrailingZeros = e.storedTrailingZeros)) →
        d.rd = (bitsOfNat ((p.Timestamp + 2 ^ 64 - e.headerTimestamp) % 2 ^ 64) 38
          ++ bitsOfNat p.Value 64) ++ rest →
        ∃ d1, DecodePoint d = .ok (p, d1) ∧ d1.rd = rest ∧ Synced e1 d1 := by
  have henc : EncodePoint e p = writeFirst e p := by unfold EncodePoint; rw [if_pos hz]
  refine ⟨_, henc.trans (writeFirst_eq e p), rfl, rfl, rfl, rfl, rfl, ?_⟩
  intro d rest hdz hdh hwin hrd
  have hback : (e.headerTimestamp + (p.Timestamp + 2 ^ 64 - e.headerTimestamp) % 2 ^ 64) % 2 ^ 64
      = p.Timestamp := by omega
  have hD : DecodePoint d = .ok (p,
      { d with rd := rest,
               storedDelta := (p.Timestamp + 2 ^ 64 - e.headerTimestamp) % 2 ^ 64,
               storedTimestamp := p.Timestamp, storedValueBits := p.Value }) := by
    unfold DecodePoint
    rw [if_pos hdz, readFirst_eq d _ _ rest hdelta hv hrd, hdh, hback]
  exact ⟨_, hD, rfl, rfl, rfl, rfl, hwin, hts, Nat.mod_lt _ (by positivity), hv⟩

theorem Flush_aligned (w : List Bool) (b : Bool) :
    ∃ n, (w ++ List.replicate ((8 - w.length % 8) % 8) b).length = 8 * n := by
  refine ⟨(w.length + (8 - w.length % 8) % 8) / 8, ?_⟩
  simp only [List.length_append, List.length_replicate]
  omega

/-- Closed form of `Finish` after a sample. -/
theorem Finish_nonempty (e : Encoder) (hnz : e.storedTimestamp ≠ 0) :
    Finish e = .ok { e with wr := e.wr ++ ([true, true, true, true] ++ List.replicate 64 true
      ++ [false] ++ List.replicate ((8 - (e.wr.length + 69) % 8) % 8) false) } := by
  unfold Finish
  rw [if_neg hnz]
  have h64 : bitsOfNat 0xFFFFFFFFFFFFFFFF 64 = List.replicate 64 true := by rfl
  have h4 : bitsOfNat 0x0F 4 = [true, true, true, true] := by decide
  simp only [bind, Except.bind, pure, Except.pure, WriteBit, Flush,
    WriteBits_eq _ _ 4 (by norm_num), WriteBits_eq _ _ 64 (by norm_num), h64, h4,
    List.length_append, List.length_replicate, List.length_cons, List.length_nil,
    List.append_assoc]

/-- Closed form of `Finish` before any sample. -/
theorem Finish_empty (e : Encoder) (hz : e.storedTimestamp = 0) :
    Finish e = .ok { e with wr := e.wr ++ (List.replicate 38 true ++ List.replicate 64 false
      ++ List.replicate ((8 - (e.wr.length + 102) % 8) % 8) false) } := by
  unfold Finish
  rw [if_pos hz]
  have h64 : bitsOfNat 0 64 = List.replicate 64 false := by rfl
  have h38 : bitsOfNat (2 ^ 38 - 1) 38 = List.replicate 38 true := by rfl
  simp only [bind, Except.bind, pure, Except.pure, Flush, nBitsFirstDelta,
    WriteBits_eq _ _ 38 (by norm_num), WriteBits_eq _ _ 64 (by norm_num), h64, h38,
    List.length_append, List.length_replicate, List.append_assoc]

theorem ones38 : bitsOfNat (2 ^ 38 - 1) 38 = List.replicate 38 true := by rfl

theorem ones64 : bitsOfNat 0xFFFFFFFFFFFFFFFF 64 = List.replicate 64 true := by rfl

theorem readFirst_marker (d : Decoder) (u : Nat) (tail : List Bool)
    (hu : u % 2 ^ 38 = 2 ^ 38 - 1) (hrd : d.rd = bitsOfNat u 38 ++ tail) :
    readFirst d = .error .eof := by
  unfold readFirst
  simp only [bind, Except.bind, nBitsFirstDelta, hrd, ReadBits_bitsOfNat _ 38 _ (by norm_num), hu,
    if_true]

/-- Before any sample, 38 one-bits are read as end-of-block. -/
theorem DecodePoint_marker_first (d : Decoder) (tail : List Bool) (hz : d.storedTimestamp = 0)
    (hrd : d.rd = List.replicate 38 true ++ tail) : DecodePoint d = .error .eof := by
  unfold DecodePoint
  rw [if_pos hz]
  exact readFirst_marker d (2 ^ 38 - 1) tail (by norm_num) (by rw [ones38]; exact hrd)

theorem readTmestamp_marker (d : Decoder) (u : Nat) (tail : List Bool)
    (hu : u % 2 ^ 64 = 0xFFFFFFFFFFFFFFFF)
    (hrd : d.rd = [true, true, true, true] ++ bitsOfNat u 64 ++ tail) :
    readTmestamp d = .error .eof := by
  obtain ⟨rd, ht, st, sd, sl, sz, sv⟩ := d
  simp only at hrd
  subst hrd
  have hsel := bitsToRead_selector ⟨[], ht, st, sd, sl, sz, sv⟩ Bucket.E (bitsOfNat u 64 ++ tail)
  simp only [Bucket.selector, Bucket.width] at hsel
  unfold readTmestamp
  simp only [bind, Except.bind, List.append_assoc, hsel, ReadBits_bitsOfNat _ 64 _ (le_refl _), hu,
    if_true]
  rw [if_pos (by norm_num)]

/-- After a sample, `1111` and 64 one-bits are read as end-of-block. -/
theorem DecodePoint_marker_E (d : Decoder) (tail : List Bool) (hnz : d.storedTimestamp ≠ 0)
    (hrd : d.rd = [true, true, true, true] ++ List.replicate 64 true ++ tail) :
    DecodePoint d = .error .eof := by
  unfold DecodePoint readPoint
  rw [if_neg hnz]
  have h := readTmestamp_marker d 0xFFFFFFFFFFFFFFFF tail (by norm_num) (by rw [ones64]; exact hrd)
  simp only [bind, Except.bind, h]

/-! ## Whole blocks -/

theorem decodePoints_eof (fuel : Nat) (d : Decoder) (acc : List Point)
    (h : DecodePoint d = .error .eof) : decodePoints (fuel + 1) d acc = some (.ok acc) := by
  simp only [decodePoints, h]

theorem decodeBlock_of_bits (fuel : Nat) (w : List Bool) (n : Nat) (hlen : w.length = 8 * n)
    (t0 : Nat) (ht0 : t0 < 2 ^ 64) (rest : List Bool) (hw : w = bitsOfNat t0 64 ++ rest) :
    decodeBlock fuel (bytesOfBits w) =
      match decodePoints fuel { NewDecoder rest with headerTimestamp := t0 } [] with
      | none => none
      | some (.error err) => some (.error err)
      | some (.ok points) => some (.ok (t0, points)) := by
  unfold decodeBlock
  rw [bitsOfBytes_bytesOfBits n w hlen]
  rw [DecodeHeader_eq (NewDecoder w) t0 rest ht0 (by rw [hw]; rfl)]
  rfl

/-- Round trip of a block whose first delta is below the sentinel and whose window
descriptors fit, for arbitrary non-zero later timestamps. -/
theorem roundtrip_core (t0 : Nat) (S : List Point) (ht0 : t0 < 2 ^ 64)
    (hS : ∀ p ∈ S, p.Timestamp ≠ 0 ∧ p.Timestamp < 2 ^ 64 ∧ p.Value < 2 ^ 64)
    (hfirst : ∀ p ∈ S.head?, (p.Timestamp + 2 ^ 64 - t0) % 2 ^ 64 < 2 ^ 38 - 1)
    (hfit : descriptorsFit S = true) :
    ∃ bytes, encodeBlock t0 S = .ok bytes ∧
      ∀ fuel, S.length < fuel → decodeBlock fuel bytes = some (.ok (t0, S)) := by
  unfold encodeBlock
  rw [EncodeHeader_eq]
  cases S with
  | nil =>
    simp only [bind, Except.bind, encodePoints, pure, Except.pure]
    rw [Finish_empty _ rfl]
    refine ⟨_, rfl, ?_⟩
    intro fuel hfuel
    obtain ⟨n, hn⟩ := Flush_aligned (NewEncoder.wr ++ bitsOfNat t0 64 ++
      (List.replicate 38 true ++ List.replicate 64 false)) false
    obtain ⟨k, rfl⟩ : ∃ k, fuel = k + 1 := ⟨fuel - 1, by simp at hfuel; omega⟩
    simp only [NewEncoder, List.nil_append, List.length_append, List.length_replicate,
      bitsOfNat_length] at hn ⊢
    rw [decodeBlock_of_bits (k + 1) _ n (by simpa [bitsOfNat_length, Nat.add_assoc] using hn) t0 ht0 _ rfl]
    rw [decodePoints_eof k _ [] (DecodePoint_marker_first _ _ rfl (by simp [NewDecoder]; rfl))]
  | cons p ps =>
    have hp := hS p (List.mem_cons_self _ _)
    have hdelta := hfirst p (by simp)
    obtain ⟨e1, hE1, hwr1, hts1, hsv1, hl1, hz1, hdec1⟩ :=
      first_step { NewEncoder with wr := NewEncoder.wr ++ bitsOfNat t0 64, headerTimestamp := t0 }
        p rfl ht0 hp.2.1 hp.2.2 hdelta
    have hfit1 : windowsFit e1.storedLeadingZeros e1.storedTrailingZeros e1.storedValueBits
        (ps.map (fun q => q.Value)) = true := by
      rw [hl1, hz1, hsv1]; exact hfit
    obtain ⟨e2, bits, hE2, hwr2, hnz2, hdec2⟩ :=
      points_roundtrip ps e1 (by rw [hts1]; exact hp.1) (by rw [hsv1]; exact hp.2.2)
        (fun q hq => hS q (List.mem_cons_of_mem _ hq)) hfit1
    simp only [bind, Except.bind, encodePoints, hE1, hE2, pure, Except.pure]
    rw [Finish_nonempty _ hnz2]
    refine ⟨_, rfl, ?_⟩
    intro fuel hfuel
    obtain ⟨n, hn⟩ := Flush_aligned (e2.wr ++
      ([true, true, true, true] ++ List.replicate 64 true ++ [false])) false
    obtain ⟨k, rfl⟩ : ∃ k, fuel = k + 1 + ps.length + 1 :=
      ⟨fuel - ps.length - 2, by simp only [List.length_cons] at hfuel; omega⟩
    simp only [NewEncoder, List.nil_append] at hwr1
    have hw : e2.wr ++ ([true, true, true, true] ++ List.replicate 64 true ++ [false] ++
          List.replicate ((8 - (e2.wr.length + 69) % 8) % 8) false) =
        bitsOfNat t0 64 ++ ((bitsOfNat ((p.Timestamp + 2 ^ 64 - t0) % 2 ^ 64) 38 ++
          bitsOfNat p.Value 64) ++ (bits ++ ([true, true, true, true] ++ List.replicate 64 true ++
            ([false] ++ List.replicate ((8 - (e2.wr.length + 69) % 8) % 8) false)))) := by
      rw [hwr2, hwr1]; simp only [List.append_assoc]
    have hlen : (e2.wr ++ ([true, true, true, true] ++ List.replicate 64 true ++ [false] ++
          List.replicate ((8 - (e2.wr.length + 69) % 8) % 8) false)).length = 8 * n := by
      rw [← hn]
      simp only [List.length_append, List.length_replicate, List.length_cons, List.length_nil]
      omega
    rw [decodeBlock_of_bits _ _ n hlen t0 ht0 _ hw]
    generalize hfin : ([true, true, true, true] ++ List.replicate 64 true ++
            ([false] ++ List.replicate ((8 - (e2.wr.length + 69) % 8) % 8) false)) = fin
    generalize hfb : (bitsOfNat ((p.Timestamp + 2 ^ 64 - t0) % 2 ^ 64) 38 ++
          bitsOfNat p.Value 64) = fb at hdec1 ⊢
    obtain ⟨d1, hD1, hrd1, hs1⟩ := hdec1 { NewDecoder (fb ++ (bits ++ fin)) with headerTimestamp := t0 }
      (bits ++ fin) rfl rfl (Or.inl (by simp [NewEncoder])) rfl
    obtain ⟨d2, hrd2, hs2, hloop⟩ := hdec2 d1 fin hs1 hrd1
    have hD2 : DecodePoint d2 = .error .eof :=
      DecodePoint_marker_E d2 ([false] ++ List.replicate ((8 - (e2.wr.length + 69) % 8) % 8) false)
        (by rw [hs2.ts]; exact hnz2) (by rw [hrd2, ← hfin])
    rw [decodePoints, hD1]
    simp only
    rw [hloop (k + 1) ([] ++ [p]), decodePoints_eof k d2 _ hD2]
    simp

/-! ## Bytes of a header -/

theorem bitsOfNat_add (u m n : Nat) :
    bitsOfNat u (m + n) = bitsOfNat (u / 2 ^ n) m ++ bitsOfNat u n := by
  induction m with
  | zero => simp [bitsOfNat]
  | succ m ih =>
    have h : m + 1 + n = (m + n) + 1 := by omega
    rw [h]
    simp only [bitsOfNat, ih, List.cons_append, Nat.div_div_eq_div_mul, ← pow_add]
    rw [Nat.add_comm n m]

theorem bytesOfBits_byte (u : Nat) (rest : List Bool) :
    bytesOfBits (bitsOfNat u 8 ++ rest) = (u % 256) :: bytesOfBits rest := by
  have h := natOfBits_bitsOfNat 0 u 8
  simp only [bitsOfNat, List.cons_append, List.nil_append, bytesOfBits] at h ⊢
  rw [h]; norm_num

theorem bytesOfBits_uint64 (u : Nat) (rest : List Bool) :
    bytesOfBits (bitsOfNat u 64 ++ rest) =
      [u / 2 ^ 56 % 256, u / 2 ^ 48 % 256, u / 2 ^ 40 % 256, u / 2 ^ 32 % 256,
       u / 2 ^ 24 % 256, u / 2 ^ 16 % 256, u / 2 ^ 8 % 256, u % 256] ++ bytesOfBits rest := by
  rw [show (64 : Nat) = 8 + 56 from rfl, bitsOfNat_add,
    show (56 : Nat) = 8 + 48 from rfl, bitsOfNat_add,
    show (48 : Nat) = 8 + 40 from rfl, bitsOfNat_add,
    show (40 : Nat) = 8 + 32 from rfl, bitsOfNat_add,
    show (32 : Nat) = 8 + 24 from rfl, bitsOfNat_add,
    show (24 : Nat) = 8 + 16 from rfl, bitsOfNat_add,
    show (16 : Nat) = 8 + 8 from rfl, bitsOfNat_add]
  simp only [List.append_assoc, bytesOfBits_byte]
  rfl

/-! ## Frame properties of the encoder -/

theorem writeValueXor_frame (e : Encoder) (v : Nat) :
    ∃ e1, writeValueXor e v = .ok e1 ∧ e1.storedTimestamp = e.storedTimestamp ∧
      e1.storedDelta = e.storedDelta ∧ e1.headerTimestamp = e.headerTimestamp ∧
      e1.storedValueBits = v := by
  unfold writeValueXor
  simp only [bind, Except.bind, pure, Except.pure, WriteBit, WriteBits]
  split
  · exact ⟨_, rfl, rfl, rfl, rfl, rfl⟩
  · split
    · exact ⟨_, rfl, rfl, rfl, rfl, rfl⟩
    · exact ⟨_, rfl, rfl, rfl, rfl, rfl⟩

/-- Any `EncodePoint` call succeeds and stores the sample's timestamp and value bits. -/
theorem EncodePoint_frame (e : Encoder) (p : Point) :
    ∃ e1, EncodePoint e p = .ok e1 ∧ e1.storedTimestamp = p.Timestamp ∧
      e1.storedValueBits = p.Value ∧ e1.headerTimestamp = e.headerTimestamp := by
  unfold EncodePoint
  split
  · exact ⟨_, writeFirst_eq e p, rfl, rfl, rfl⟩
  · unfold writePoint
    simp only [bind, Except.bind, writeTimestampDeltaDelta_eq]
    obtain ⟨e1, h1, h2, _, h4, h5⟩ := writeValueXor_frame
      { e with wr := e.wr ++ tsSection (dodOf e p.Timestamp), storedTimestamp := p.Timestamp,
               storedDelta := deltaOf e p.Timestamp } p.Value
    exact ⟨e1, h1, h2, h5, h4⟩

theorem encodePoints_frame (ps : List Point) :
    ∀ e : Encoder, ∃ e1, encodePoints e ps = .ok e1 ∧
      e1.headerTimestamp = e.headerTimestamp ∧ (ps = [] → e1 = e) ∧
      ∀ q ∈ ps.getLast?, e1.storedTimestamp = q.Timestamp ∧ e1.storedValueBits = q.Value := by
  induction ps with
  | nil => intro e; exact ⟨e, rfl, rfl, fun _ => rfl, by simp⟩
  | cons p ps ih =>
    intro e
    obtain ⟨e1, h1, hts, hsv, hh⟩ := EncodePoint_frame e p
    obtain ⟨e2, h2, hh2, hnil, hlast⟩ := ih e1
    refine ⟨e2, ?_, by rw [hh2, hh], by simp, ?_⟩
    · simp only [encodePoints, bind, Except.bind, h1, h2]
    · intro q hq
      cases ps with
      | nil =>
        simp only [List.getLast?_singleton, Option.mem_def, Option.some.injEq] at hq
        subst hq
        rw [hnil rfl]
        exact ⟨hts, hsv⟩
      | cons p2 ps2 =>
        rw [List.getLast?_cons_cons] at hq
        exact hlast q hq

/-- Closed form of `EncodePoint` once a non-zero timestamp is stored. -/
theorem EncodePoint_later (e : Encoder) (p : Point) (hnz : e.storedTimestamp ≠ 0)
    (hsv : e.storedValueBits < 2 ^ 64) (hv : p.Value < 2 ^ 64) :
    EncodePoint e p = .ok { e with
      wr := e.wr ++ tsSection (dodOf e p.Timestamp) ++
        valueSection e.storedLeadingZeros e.storedTrailingZeros (e.storedValueBits ^^^ p.Value),
      storedTimestamp := p.Timestamp, storedDelta := deltaOf e p.Timestamp,
      storedValueBits := p.Value,
      storedLeadingZeros :=
        (windowAfter e.storedLeadingZeros e.storedTrailingZeros (e.storedValueBits ^^^ p.Value)).1,
      storedTrailingZeros :=
        (windowAfter e.storedLeadingZeros e.storedTrailingZeros
          (e.storedValueBits ^^^ p.Value)).2 } := by
  have h1 := writeTimestampDeltaDelta_eq e p.Timestamp
  have h2 := writeValueXor_eq
    { e with wr := e.wr ++ tsSection (dodOf e p.Timestamp), storedTimestamp := p.Timestamp,
             storedDelta := deltaOf e p.Timestamp } p.Value hsv hv
  unfold EncodePoint writePoint
  rw [if_neg hnz]
  simp only [bind, Except.bind, h1]
  exact h2

/-! ## Outcomes of the decoder on arbitrary input -/

theorem ReadBits_of_le (r : List Bool) (n : Nat) (h : n ≤ r.length) :
    ReadBits r n = .ok (natOfBits 0 (r.take n) % 2 ^ 64, r.drop n) := by
  unfold ReadBits; rw [if_neg (by omega)]

theorem ReadBits_of_lt (r : List Bool) (n : Nat) (h : r.length < n) :
    ReadBits r n = .error .eof := by
  unfold ReadBits; rw [if_pos h]

theorem ReadBits_outcome (r : List Bool) (n : Nat) :
    (∃ v, ReadBits r n = .ok (v, r.drop n) ∧ n ≤ r.length ∧
      v = natOfBits 0 (r.take n) % 2 ^ 64) ∨
    (ReadBits r n = .error .eof ∧ r.length < n) := by
  by_cases h : r.length < n
  · exact Or.inr ⟨ReadBits_of_lt r n h, h⟩
  · exact Or.inl ⟨_, ReadBits_of_le r n (Nat.le_of_not_lt h), Nat.le_of_not_lt h, rfl⟩

/-- Outcome of `bitsToRead`: either the input starts with the selector of a bucket, which
is consumed and whose width is returned, or fewer than 4 bits, all ones, are left and
the reader's `io.EOF` is returned.  The format error is never returned. -/
theorem bitsToRead_outcome (d : Decoder) :
    (∃ (b : Bucket) (tail : List Bool), d.rd = b.selector ++ tail ∧
      bitsToRead d = .ok (b.width, { d with rd := tail })) ∨
    (bitsToRead d = .error .eof ∧ d.rd.length < 4 ∧
      d.rd = List.replicate d.rd.length true) := by
  obtain ⟨rd, ht, st, sd, sl, sz, sv⟩ := d
  match rd with
  | [] => right; simp [bitsToRead, bitsToReadLoop, ReadBit, bind, Except.bind]
  | false :: r =>
    exact Or.inl ⟨Bucket.A, r, rfl, bitsToRead_selector ⟨[], ht, st, sd, sl, sz, sv⟩ Bucket.A r⟩
  | [true] => right; simp [bitsToRead, bitsToReadLoop, ReadBit, bind, Except.bind, List.replicate]
  | true :: false :: r =>
    exact Or.inl ⟨Bucket.B, r, rfl, bitsToRead_selector ⟨[], ht, st, sd, sl, sz, sv⟩ Bucket.B r⟩
  | [true, true] =>
    right; simp [bitsToRead, bitsToReadLoop, ReadBit, bind, Except.bind, List.replicate]
  | true :: true :: false :: r =>
    exact Or.inl ⟨Bucket.C, r, rfl, bitsToRead_selector ⟨[], ht, st, sd, sl, sz, sv⟩ Bucket.C r⟩
  | [true, true, true] =>
    right; simp [bitsToRead, bitsToReadLoop, ReadBit, bind, Except.bind, List.replicate]
  | true :: true :: true :: false :: r =>
    exact Or.inl ⟨Bucket.D, r, rfl, bitsToRead_selector ⟨[], ht, st, sd, sl, sz, sv⟩ Bucket.D r⟩
  | true :: true :: true :: true :: r =>
    exact Or.inl ⟨Bucket.E, r, rfl, bitsToRead_selector ⟨[], ht, st, sd, sl, sz, sv⟩ Bucket.E r⟩

theorem ones_of_natOfBits (l : List Bool) (h : natOfBits 0 l % 2 ^ 64 = 0xFFFFFFFFFFFFFFFF)
    (hl : l.length = 64) : l = List.replicate 64 true := by
  have h1 : natOfBits 0 l < 2 ^ 64 := by
    have := natOfBits_lt l 0
    rw [hl] at this; simpa using this
  rw [Nat.mod_eq_of_lt h1] at h
  have h2 := bitsOfNat_natOfBits l 0
  rw [h, hl, ones64] at h2
  exact h2.symm

theorem ones_of_natOfBits38 (l : List Bool) (h : natOfBits 0 l % 2 ^ 64 = 2 ^ 38 - 1)
    (hl : l.length = 38) : l = List.replicate 38 true := by
  have h1 : natOfBits 0 l < 2 ^ 38 := by
    have := natOfBits_lt l 0
    rw [hl] at this; simpa using this
  rw [Nat.mod_eq_of_lt (by omega)] at h
  have h2 := bitsOfNat_natOfBits l 0
  rw [h, hl, ones38] at h2
  exact h2.symm

/-- Outcome of `readTmestamp`: a success consumes between 1 and 68 bits; a failure is
`io.EOF`, and then fewer than 68 bits are left or the input starts with the bucket-E
selector followed by 64 one-bits. -/
theorem readTmestamp_outcome (d : Decoder) :
    (∃ t d1, readTmestamp d = .ok (t, d1) ∧ d1.rd.length + 1 ≤ d.rd.length ∧
      d.rd.length ≤ d1.rd.length + 68) ∨
    (readTmestamp d = .error .eof ∧ (d.rd.length < 68 ∨
      ∃ tail, d.rd = [true, true, true, true] ++ List.replicate 64 true ++ tail)) := by
  rcases bitsToRead_outcome d with ⟨b, tail, hrd, hsel⟩ | ⟨he, hl, _⟩
  · have hbw : b.width ≤ 64 := by cases b <;> simp [Bucket.width]
    have hbs : 1 ≤ b.selector.length ∧ b.selector.length ≤ 4 := by
      cases b <;> simp [Bucket.selector]
    have hlen : d.rd.length = b.selector.length + tail.length := by
      rw [hrd, List.length_append]
    cases hres : readTmestamp d with
    | error e =>
      right
      unfold readTmestamp at hres
      simp only [bind, Except.bind, hsel, pure, Except.pure] at hres
      rcases ReadBits_outcome tail b.width with ⟨v, hv, hl, hvv⟩ | ⟨he, hl⟩
      · simp only [hv] at hres
        split_ifs at hres with h1 h2 h3 h4
        · cases hres
          refine ⟨rfl, Or.inr ⟨tail.drop 64, ?_⟩⟩
          have hb : b = Bucket.E := by cases b <;> simp_all [Bucket.width]
          subst hb
          simp only [Bucket.width] at hl hvv
          have hones := ones_of_natOfBits (tail.take 64) (by rw [← hvv]; exact h3)
            (by rw [List.length_take]; omega)
          rw [hrd, List.append_assoc, ← hones, List.take_append_drop]
          rfl
      · simp only [he] at hres
        split_ifs at hres with h1
        cases hres
        exact ⟨rfl, Or.inl (by omega)⟩
    | ok x =>
      left
      obtain ⟨t, d1⟩ := x
      refine ⟨t, d1, rfl, ?_⟩
      unfold readTmestamp at hres
      simp only [bind, Except.bind, hsel, pure, Except.pure] at hres
      rcases ReadBits_outcome tail b.width with ⟨v, hv, hl, hvv⟩ | ⟨he, hl⟩
      · simp only [hv] at hres
        split_ifs at hres <;> cases hres <;> simp only [List.length_drop] <;> omega
      · simp only [he] at hres
        split_ifs at hres
        cases hres
        simp only; omega
  · right
    refine ⟨?_, Or.inl (by omega)⟩
    unfold readTmestamp
    simp only [bind, Except.bind, he]


theorem sub8_lt (a b : Nat) : sub8 a b < 256 := by
  unfold sub8; omega

/-- Outcome of `readValue`: it fails only with `io.EOF`, a success consumes at least one
bit and at most 268, and it succeeds whenever 268 bits are available. -/
theorem readValue_outcome (d : Decoder) :
    (∃ v d1, readValue d = .ok (v, d1) ∧ d1.rd.length + 1 ≤ d.rd.length ∧
      d.rd.length ≤ d1.rd.length + 268) ∨
    (readValue d = .error .eof ∧ d.rd.length < 268) := by
  obtain ⟨rd, ht, st, sd, sl, sz, sv⟩ := d
  match rd with
  | [] => right; simp [readValue, ReadBit, bind, Except.bind]
  | false :: r =>
    left
    refine ⟨_, _, by simp only [readValue, ReadBit, bind, Except.bind, pure, Except.pure]; rfl, ?_, ?_⟩
    · simp
    · simp only [List.length_cons]; omega
  | [true] => right; simp [readValue, ReadBit, bind, Except.bind]
  | true :: false :: r =>
    have hw := sub8_lt (sub8 64 sl) sz
    rcases ReadBits_outcome r (sub8 (sub8 64 sl) sz) with ⟨v, hv, hl, _⟩ | ⟨he, hl⟩
    · left
      refine ⟨_, _, by simp only [readValue, ReadBit, bind, Except.bind, pure, Except.pure, hv]; rfl, ?_, ?_⟩
      · simp only [List.length_drop, List.length_cons]; omega
      · simp only [List.length_drop, List.length_cons]; omega
    · right
      refine ⟨by simp only [readValue, ReadBit, bind, Except.bind, he]; rfl, ?_⟩
      simp only [List.length_cons]; omega
  | true :: true :: r =>
    rcases ReadBits_outcome r 5 with ⟨v5, hv5, hl5, _⟩ | ⟨he5, hl5⟩
    · rcases ReadBits_outcome (r.drop 5) 6 with ⟨v6, hv6, hl6, _⟩ | ⟨he6, hl6⟩
      · have hw := sub8_lt (sub8 64 (v5 % 256))
          (sub8 (sub8 64 ((if v6 = 0 then 64 else v6) % 256)) (v5 % 256))
        rcases ReadBits_outcome ((r.drop 5).drop 6) (sub8 (sub8 64 (v5 % 256))
          (sub8 (sub8 64 ((if v6 = 0 then 64 else v6) % 256)) (v5 % 256)))
          with ⟨v, hv, hl, _⟩ | ⟨he, hl⟩
        · left
          refine ⟨_, _, by simp only [readValue, ReadBit, bind, Except.bind, pure, Except.pure, hv5, hv6, hv]; rfl, ?_, ?_⟩
          · simp only [List.length_drop, List.length_cons]; omega
          · simp only [List.length_drop, List.length_cons] at hl ⊢; omega
        · right
          refine ⟨by simp only [readValue, ReadBit, bind, Except.bind, hv5, hv6, he]; rfl, ?_⟩
          simp only [List.length_drop, List.length_cons] at hl ⊢; omega
      · right
        refine ⟨by simp only [readValue, ReadBit, bind, Except.bind, hv5, he6]; rfl, ?_⟩
        simp only [List.length_drop, List.length_cons] at hl6 ⊢; omega
    · right
      refine ⟨by simp only [readValue, ReadBit, bind, Except.bind, he5]; rfl, ?_⟩
      simp only [List.length_cons]; omega

/-- Outcome of `readFirst`. -/
theorem readFirst_outcome (d : Decoder) :
    (∃ p d1, readFirst d = .ok (p, d1) ∧ d1.rd.length + 102 = d.rd.length) ∨
    (readFirst d = .error .eof ∧ (d.rd.length < 102 ∨
      ∃ tail, d.rd = List.replicate 38 true ++ tail)) := by
  rcases ReadBits_outcome d.rd 38 with ⟨v, hv, hl, hvv⟩ | ⟨he, hl⟩
  · by_cases hm : v = 2 ^ 38 - 1
    · right
      refine ⟨by simp only [readFirst, bind, Except.bind, nBitsFirstDelta, hv, hm, if_true], ?_⟩
      right
      have hones := ones_of_natOfBits38 (d.rd.take 38) (by rw [← hvv]; exact hm)
        (by rw [List.length_take]; omega)
      exact ⟨d.rd.drop 38, by rw [← hones, List.take_append_drop]⟩
    · rcases ReadBits_outcome (d.rd.drop 38) 64 with ⟨w, hw, hl2, _⟩ | ⟨he2, hl2⟩
      · left
        refine ⟨_, _, by simp only [readFirst, bind, Except.bind, nBitsFirstDelta, hv, hm,
          if_false, hw, pure, Except.pure]; rfl, ?_⟩
        simp only [List.length_drop] at hl2 ⊢; omega
      · right
        refine ⟨by simp only [readFirst, bind, Except.bind, nBitsFirstDelta, hv, hm,
          if_false, he2], Or.inl ?_⟩
        simp only [List.length_drop] at hl2; omega
  · right
    exact ⟨by simp only [readFirst, bind, Except.bind, nBitsFirstDelta, he], Or.inl (by omega)⟩

/-- Outcome of `DecodePoint`: a success consumes at least 2 bits; a failure is `io.EOF`,
and then fewer than 336 bits are left or the decoder is at a finish marker. -/
theorem DecodePoint_outcome (d : Decoder) :
    (∃ p d1, DecodePoint d = .ok (p, d1) ∧ d1.rd.length + 2 ≤ d.rd.length) ∨
    (DecodePoint d = .error .eof ∧ (d.rd.length < 336 ∨ AtFinishMarker d)) := by
  unfold DecodePoint AtFinishMarker
  by_cases hz : d.storedTimestamp = 0
  · rw [if_pos hz]
    rcases readFirst_outcome d with ⟨p, d1, h, hl⟩ | ⟨h, hl | hm⟩
    · exact Or.inl ⟨p, d1, h, by omega⟩
    · exact Or.inr ⟨h, Or.inl (by omega)⟩
    · exact Or.inr ⟨h, Or.inr (Or.inl ⟨hz, hm⟩)⟩
  · rw [if_neg hz]
    unfold readPoint
    rcases readTmestamp_outcome d with ⟨t, d1, h, hl1, hl2⟩ | ⟨h, hl | hm⟩
    · rcases readValue_outcome d1 with ⟨v, d2, h2, hl3, hl4⟩ | ⟨h2, hl3⟩
      · left
        exact ⟨⟨t, v⟩, d2, by simp only [bind, Except.bind, h, h2, pure, Except.pure], by omega⟩
      · right
        exact ⟨by simp only [bind, Except.bind, h, h2], Or.inl (by omega)⟩
    · exact Or.inr ⟨by simp only [bind, Except.bind, h], Or.inl (by omega)⟩
    · exact Or.inr ⟨by simp only [bind, Except.bind, h], Or.inr (Or.inr ⟨hz, hm⟩)⟩

theorem ones_of_append_zeros (r : List Bool) (k n : Nat) (tail : List Bool) (hn : k ≤ n)
    (h : r ++ List.replicate n false = List.replicate k true ++ tail) :
    ∃ tail1, r = List.replicate k true ++ tail1 := by
  by_cases hk : k ≤ r.length
  · refine ⟨r.drop k, ?_⟩
    have h1 := congrArg (List.take k) h
    rw [List.take_append_of_le_length hk, List.take_left' (by simp)] at h1
    rw [← h1, List.take_append_drop]
  · exfalso
    have h1 := congrArg (fun l => l[r.length]?) h
    simp only at h1
    rw [List.getElem?_append_right (le_refl _), Nat.sub_self,
      List.getElem?_append_left (by simp; omega)] at h1
    rw [List.getElem?_replicate, List.getElem?_replicate] at h1
    rw [if_pos (by omega), if_pos (by omega)] at h1
    cases h1

theorem AtFinishMarker_of_append_zeros (d : Decoder) (n : Nat) (hn : 68 ≤ n)
    (h : AtFinishMarker { d with rd := d.rd ++ List.replicate n false }) : AtFinishMarker d := by
  unfold AtFinishMarker at h ⊢
  rcases h with ⟨hz, tail, ht⟩ | ⟨hz, tail, ht⟩
  · exact Or.inl ⟨hz, ones_of_append_zeros d.rd 38 n tail (by omega) ht⟩
  · right
    refine ⟨hz, ?_⟩
    have h68 : [true, true, true, true] ++ List.replicate 64 true = List.replicate 68 true := rfl
    rw [h68] at ht ⊢
    exact ones_of_append_zeros d.rd 68 n tail hn ht

theorem bitsOfBytes_length (data : List Nat) : (bitsOfBytes data).length = 8 * data.length := by
  induction data with
  | nil => rfl
  | cons b bs ih => simp only [bitsOfBytes, List.length_append, bitsOfNat_length, ih,
      List.length_cons]; omega

/-- The read loop ends without error as soon as it may run more often than there are bits. -/
theorem decodePoints_total (fuel : Nat) :
    ∀ (d : Decoder) (acc : List Point), d.rd.length < fuel →
      ∃ pts, decodePoints fuel d acc = some (.ok pts) := by
  induction fuel with
  | zero => intro d acc h; omega
  | succ k ih =>
    intro d acc h
    rcases DecodePoint_outcome d with ⟨p, d1, hD, hl⟩ | ⟨hD, _⟩
    · obtain ⟨pts, hp⟩ := ih d1 (acc ++ [p]) (by omega)
      exact ⟨pts, by simp only [decodePoints, hD, hp]⟩
    · exact ⟨acc, by simp only [decodePoints, hD]⟩

theorem decodeBlock_total (data : List Nat) (fuel : Nat) (h8 : 8 ≤ data.length)
    (hfuel : 8 * data.length < fuel) :
    ∃ t0 pts, decodeBlock fuel data = some (.ok (t0, pts)) := by
  have hlen := bitsOfBytes_length data
  rcases ReadBits_outcome (bitsOfBytes data) 64 with ⟨v, hv, _, _⟩ | ⟨_, hl⟩
  · obtain ⟨pts, hp⟩ := decodePoints_total fuel
      { NewDecoder (bitsOfBytes data) with rd := (bitsOfBytes data).drop 64,
                                           headerTimestamp := v } []
      (by simp only [List.length_drop]; omega)
    refine ⟨v, pts, ?_⟩
    unfold decodeBlock DecodeHeader
    simp only [bind, Except.bind, NewDecoder, hv, pure, Except.pure]
    simp only [NewDecoder] at hp
    rw [hp]
  · omega

/-! ## Samples with an unchanged value -/

/-- A sample whose value bits equal the stored ones leaves the window as it is. -/
theorem EncodePoint_same_value (e : Encoder) (p : Point)
    (hsame : e.storedTimestamp = 0 ∨ e.storedValueBits = p.Value) (hv : p.Value < 2 ^ 64) :
    ∃ e1, EncodePoint e p = .ok e1 ∧ e1.storedLeadingZeros = e.storedLeadingZeros ∧
      e1.storedTrailingZeros = e.storedTrailingZeros ∧ e1.storedValueBits = p.Value := by
  by_cases hz : e.storedTimestamp = 0
  · have h1 : EncodePoint e p = writeFirst e p := by unfold EncodePoint; rw [if_pos hz]
    rw [h1, writeFirst_eq e p]
    exact ⟨_, rfl, rfl, rfl, rfl⟩
  · have hsv : e.storedValueBits = p.Value := hsame.resolve_left hz
    refine ⟨_, EncodePoint_later e p hz (by omega) hv, ?_, ?_, rfl⟩
    · simp [windowAfter, hsv]
    · simp [windowAfter, hsv]

/-- Samples that all carry the value `v` leave the stored window as it is, whatever their
timestamps. -/
theorem encodePoints_same_value (v : Nat) (hv : v < 2 ^ 64) (ps : List Point) :
    ∀ e : Encoder, (e.storedTimestamp = 0 ∨ e.storedValueBits = v) → (∀ q ∈ ps, q.Value = v) →
      ∃ e1, encodePoints e ps = .ok e1 ∧ e1.storedLeadingZeros = e.storedLeadingZeros ∧
        e1.storedTrailingZeros = e.storedTrailingZeros ∧
        (ps ≠ [] → e1.storedValueBits = v) ∧
        (∀ q ∈ ps.getLast?, e1.storedTimestamp = q.Timestamp) := by
  intro e hsame hps
  obtain ⟨e1, hE, -, -, hlast⟩ := encodePoints_frame ps e
  refine ⟨e1, hE, ?_⟩
  have hw : ∀ (ps : List Point) (e e1 : Encoder),
      (e.storedTimestamp = 0 ∨ e.storedValueBits = v) → (∀ q ∈ ps, q.Value = v) →
      encodePoints e ps = .ok e1 → e1.storedLeadingZeros = e.storedLeadingZeros ∧
        e1.storedTrailingZeros = e.storedTrailingZeros ∧ (ps ≠ [] → e1.storedValueBits = v) := by
    intro ps
    induction ps with
    | nil =>
      intro e e1 _ _ h
      simp only [encodePoints, Except.ok.injEq] at h
      subst h
      exact ⟨rfl, rfl, fun h => absurd rfl h⟩
    | cons q qs ih =>
      intro e e1 hsame hps h
      have hq : q.Value = v := hps q (List.mem_cons_self _ _)
      obtain ⟨e2, h2, hl, ht, hval⟩ := EncodePoint_same_value e q (by rw [hq]; exact hsame)
        (by omega)
      simp only [encodePoints, bind, Except.bind, h2] at h
      obtain ⟨il, it, iv⟩ := ih e2 e1 (Or.inr (by rw [hval, hq]))
        (fun r hr => hps r (List.mem_cons_of_mem _ hr)) h
      refine ⟨by rw [il, hl], by rw [it, ht], fun _ => ?_⟩
      by_cases hqs : qs = []
      · subst hqs
        simp only [encodePoints, Except.ok.injEq] at h
        subst h
        rw [hval, hq]
      · exact iv hqs
  obtain ⟨a, b, c⟩ := hw ps e e1 hsame hps hE
  exact ⟨a, b, c, fun q hq => (hlast q hq).1⟩

/-- Equal values need no window descriptor. -/
theorem windowsFit_same_value (v : Nat) (vs : List Nat) (hvs : ∀ x ∈ vs, x = v) :
    ∀ lead trail, windowsFit lead trail v vs = true := by
  induction vs with
  | nil => intro _ _; rfl
  | cons x xs ih =>
    intro lead trail
    have hx : x = v := hvs x (List.mem_cons_self _ _)
    subst hx
    have h1 : leadFits lead trail (x ^^^ x) = true := by simp [leadFits]
    have h2 : windowAfter lead trail (x ^^^ x) = (lead, trail) := by simp [windowAfter]
    simp only [windowsFit, h1, h2, Bool.true_and]
    exact ih (fun y hy => hvs y (List.mem_cons_of_mem _ hy)) lead trail

/-! ## Sizes of the sections -/

theorem tsSection_zero : tsSection 0 = [false] := by rfl

theorem tsSection_one : (tsSection 1).length = 9 := by rfl

theorem valueSection_zero (lead trail : Nat) : valueSection lead trail 0 = [false] := by
  simp [valueSection]

/-- Samples with one value and delta-of-deltas alternating between 0 and 1 take at most
10 bits each. -/
theorem alternating_points_size (v : Nat) (hv : v < 2 ^ 64) (ps : List Point) :
    ∀ (e : Encoder) (dd : Int), e.storedTimestamp ≠ 0 → e.storedValueBits = v →
      (∀ q ∈ ps, q.Timestamp ≠ 0 ∧ q.Value = v) → (dd = 0 ∨ dd = 1) →
      dodsAlternate e.storedTimestamp e.storedDelta dd (ps.map (fun q => q.Timestamp)) = true →
      ∃ e1 bits, encodePoints e ps = .ok e1 ∧ e1.wr = e.wr ++ bits ∧
        bits.length ≤ 10 * ps.length := by
  induction ps with
  | nil =>
    intro e dd _ _ _ _ _
    exact ⟨e, [], rfl, by simp, by simp⟩
  | cons q qs ih =>
    intro e dd hnz hval hps hdd halt
    obtain ⟨hqt, hqv⟩ := hps q (List.mem_cons_self _ _)
    simp only [List.map_cons, dodsAlternate, Bool.and_eq_true, decide_eq_true_eq] at halt
    obtain ⟨hd, hrest⟩ := halt
    have hE := EncodePoint_later e q hnz (by omega) (by omega)
    have hdod : dodOf e q.Timestamp = dd := hd
    have hx : e.storedValueBits ^^^ q.Value = 0 := by rw [hval, hqv]; exact Nat.xor_self v
    rw [hdod, hx, valueSection_zero] at hE
    obtain ⟨e2, he2, hwr, hts, hdl, hvl⟩ : ∃ e2, EncodePoint e q = .ok e2 ∧
        e2.wr = e.wr ++ tsSection dd ++ [false] ∧ e2.storedTimestamp = q.Timestamp ∧
        e2.storedDelta = deltaOf e q.Timestamp ∧ e2.storedValueBits = q.Value :=
      ⟨_, hE, rfl, rfl, rfl, rfl⟩
    obtain ⟨e1, bits, h1, h2, h3⟩ := ih e2 (1 - dd) (by rw [hts]; exact hqt) (by rw [hvl, hqv])
      (fun r hr => hps r (List.mem_cons_of_mem _ hr)) (by omega)
      (by rw [hts, hdl]; exact hrest)
    refine ⟨e1, tsSection dd ++ [false] ++ bits, ?_, ?_, ?_⟩
    · simp only [encodePoints, bind, Except.bind, he2]
      exact h1
    · rw [h2, hwr]; simp
    · have hlen : (tsSection dd).length ≤ 9 := by
        rcases hdd with h | h <;> subst h
        · rw [tsSection_zero]; simp
        · rw [tsSection_one]
      simp only [List.length_append, List.length_cons, List.length_nil]
      omega

/-- No timestamp section of a sample is the finish marker `1111` followed by 64 one-bits:
the delta-of-delta `-1`, whose 64-bit pattern is all ones, belongs to the 7-bit bucket. -/
theorem tsSection_ne_marker (dd : Int) (hlo : -2 ^ 63 ≤ dd) (hhi : dd < 2 ^ 63) :
    tsSection dd ≠ [true, true, true, true] ++ List.replicate 64 true := by
  intro h
  unfold tsSection at h
  rcases bucketOf_cases dd with ⟨_, hb⟩ | ⟨_, _, _, hb⟩ | ⟨_, _, _, hb⟩ | ⟨_, _, _, hb⟩ | ⟨h0, hb⟩
  · rw [hb] at h; have := congrArg List.length h
    simp [Bucket.selector, Bucket.width, bitsOfNat_length] at this
  · rw [hb] at h; have := congrArg List.length h
    simp [Bucket.selector, Bucket.width, bitsOfNat_length] at this
  · rw [hb] at h; have := congrArg List.length h
    simp [Bucket.selector, Bucket.width, bitsOfNat_length] at this
  · rw [hb] at h; have := congrArg List.length h
    simp [Bucket.selector, Bucket.width, bitsOfNat_length] at this
  · rw [hb] at h
    simp only [Bucket.selector, Bucket.width] at h
    have h1 := List.append_cancel_left h
    have h2 := congrArg (natOfBits 0) h1
    rw [← ones64, natOfBits_bitsOfNat, natOfBits_bitsOfNat] at h2
    have h3 : payloadOf 64 dd = toUint64 dd := by simp [payloadOf]
    rw [h3] at h2
    unfold toUint64 at h2
    omega

/-! ## The stored window of the encoder -/

/-- One `EncodePoint` call keeps the stored window either at its initial `(127, 0)` or
with at most 63 zero bits in total. -/
theorem EncodePoint_window (e : Encoder) (p : Point) (hv : p.Value < 2 ^ 64)
    (hsv : e.storedValueBits < 2 ^ 64)
    (hinv : (e.storedLeadingZeros = 127 ∧ e.storedTrailingZeros = 0) ∨
      e.storedLeadingZeros + e.storedTrailingZeros ≤ 63) :
    ∃ e1, EncodePoint e p = .ok e1 ∧ e1.storedValueBits < 2 ^ 64 ∧
      ((e1.storedLeadingZeros = 127 ∧ e1.storedTrailingZeros = 0) ∨
        e1.storedLeadingZeros + e1.storedTrailingZeros ≤ 63) := by
  by_cases hz : e.storedTimestamp = 0
  · have h1 : EncodePoint e p = writeFirst e p := by unfold EncodePoint; rw [if_pos hz]
    rw [h1, writeFirst_eq e p]
    exact ⟨_, rfl, hv, hinv⟩
  · refine ⟨_, EncodePoint_later e p hz hsv hv, hv, ?_⟩
    have hx64 : e.storedValueBits ^^^ p.Value < 2 ^ 64 := Nat.xor_lt_two_pow hsv hv
    simp only [windowAfter]
    split_ifs with h0 hc
    · exact hinv
    · exact hinv
    · exact Or.inr (zeros_add_le _ h0 hx64)

/-- The window invariant along any sequence of `EncodePoint` calls. -/
theorem encodePoints_window (ps : List Point) :
    ∀ e : Encoder, (∀ q ∈ ps, q.Value < 2 ^ 64) → e.storedValueBits < 2 ^ 64 →
      ((e.storedLeadingZeros = 127 ∧ e.storedTrailingZeros = 0) ∨
        e.storedLeadingZeros + e.storedTrailingZeros ≤ 63) →
      ∃ e1, encodePoints e ps = .ok e1 ∧ e1.storedValueBits < 2 ^ 64 ∧
        ((e1.storedLeadingZeros = 127 ∧ e1.storedTrailingZeros = 0) ∨
          e1.storedLeadingZeros + e1.storedTrailingZeros ≤ 63) := by
  induction ps with
  | nil => intro e _ hsv hinv; exact ⟨e, rfl, hsv, hinv⟩
  | cons q qs ih =>
    intro e hps hsv hinv
    obtain ⟨e1, h1, hsv1, hinv1⟩ := EncodePoint_window e q (hps q (List.mem_cons_self _ _))
      hsv hinv
    obtain ⟨e2, h2, hsv2, hinv2⟩ := ih e1 (fun r hr => hps r (List.mem_cons_of_mem _ hr))
      hsv1 hinv1
    exact ⟨e2, by simp only [encodePoints, bind, Except.bind, h1]; exact h2, hsv2, hinv2⟩

/-! ## The decoder only consumes input -/

theorem ReadBits_suffix (r : List Bool) (n v : Nat) (r1 : List Bool)
    (h : ReadBits r n = .ok (v, r1)) : r1 <:+ r := by
  unfold ReadBits at h
  split_ifs at h
  cases h
  exact List.drop_suffix _ _

theorem readFirst_suffix (d : Decoder) (p : Point) (d1 : Decoder)
    (h : readFirst d = .ok (p, d1)) : d1.rd <:+ d.rd := by
  unfold readFirst at h
  cases h1 : ReadBits d.rd nBitsFirstDelta with
  | error e => simp only [bind, Except.bind, h1] at h; cases h
  | ok x =>
    obtain ⟨v, r⟩ := x
    simp only [bind, Except.bind, h1] at h
    split_ifs at h
    cases h2 : ReadBits r 64 with
    | error e => simp only [h2] at h; cases h
    | ok y =>
      obtain ⟨w, r2⟩ := y
      simp only [h2, pure, Except.pure] at h
      cases h
      exact (ReadBits_suffix _ _ _ _ h2).trans (ReadBits_suffix _ _ _ _ h1)

theorem readTmestamp_suffix (d : Decoder) (t : Nat) (d1 : Decoder)
    (h : readTmestamp d = .ok (t, d1)) : d1.rd <:+ d.rd := by
  rcases bitsToRead_outcome d with ⟨b, tail, hrd, hsel⟩ | ⟨he, _, _⟩
  · have hs : tail <:+ d.rd := by rw [hrd]; exact List.suffix_append _ _
    unfold readTmestamp at h
    simp only [bind, Except.bind, hsel, pure, Except.pure] at h
    cases h1 : ReadBits tail b.width with
    | error e => simp only [h1] at h; split_ifs at h; cases h; exact hs
    | ok x =>
      obtain ⟨v, r⟩ := x
      have hr := (ReadBits_suffix _ _ _ _ h1).trans hs
      simp only [h1] at h
      split_ifs at h <;> cases h <;> first | exact hr | exact hs
  · unfold readTmestamp at h
    simp only [bind, Except.bind, he] at h
    cases h

theorem readValue_suffix (d : Decoder) (v : Nat) (d1 : Decoder)
    (h : readValue d = .ok (v, d1)) : d1.rd <:+ d.rd := by
  obtain ⟨rd, ht, st, sd, sl, sz, sv⟩ := d
  match rd with
  | [] => simp [readValue, ReadBit, bind, Except.bind] at h
  | false :: r =>
    simp only [readValue, ReadBit, bind, Except.bind, pure, Except.pure] at h
    cases h
    exact List.suffix_cons _ _
  | [true] => simp [readValue, ReadBit, bind, Except.bind] at h
  | true :: false :: r =>
    have hs : r <:+ true :: false :: r := List.suffix_append [true, false] r
    simp only [readValue, ReadBit, bind, Except.bind, pure, Except.pure] at h
    cases h1 : ReadBits r (sub8 (sub8 64 sl) sz) with
    | error e => simp [h1] at h
    | ok x =>
      obtain ⟨w, r1⟩ := x
      simp only [h1] at h
      cases h
      exact (ReadBits_suffix _ _ _ _ h1).trans hs
  | true :: true :: r =>
    have hs : r <:+ true :: true :: r := List.suffix_append [true, true] r
    simp only [readValue, ReadBit, bind, Except.bind, pure, Except.pure] at h
    cases h5 : ReadBits r 5 with
    | error e => simp [h5] at h
    | ok x =>
      obtain ⟨v5, r5⟩ := x
      simp only [h5] at h
      cases h6 : ReadBits r5 6 with
      | error e => simp [h6] at h
      | ok y =>
        obtain ⟨v6, r6⟩ := y
        simp only [h6] at h
        cases hw : ReadBits r6 (sub8 (sub8 64 (v5 % 256))
            (sub8 (sub8 64 ((if v6 = 0 then 64 else v6) % 256)) (v5 % 256))) with
        | error e => simp [hw] at h
        | ok z =>
          obtain ⟨w, r7⟩ := z
          simp only [hw] at h
          cases h
          exact (((ReadBits_suffix _ _ _ _ hw).trans (ReadBits_suffix _ _ _ _ h6)).trans
            (ReadBits_suffix _ _ _ _ h5)).trans hs

/-- After a successful `DecodePoint` the input left is a suffix of the input before. -/
theorem DecodePoint_suffix (d : Decoder) (p : Point) (d1 : Decoder)
    (h : DecodePoint d = .ok (p, d1)) : d1.rd <:+ d.rd := by
  unfold DecodePoint at h
  split_ifs at h
  · exact readFirst_suffix d p d1 h
  · unfold readPoint at h
    cases h1 : readTmestamp d with
    | error e => simp [bind, Except.bind, h1] at h
    | ok x =>
      obtain ⟨t, d2⟩ := x
      simp only [bind, Except.bind, h1] at h
      cases h2 : readValue d2 with
      | error e => simp [h2] at h
      | ok y =>
        obtain ⟨v, d3⟩ := y
        simp only [h2, pure, Except.pure] at h
        cases h
        exact (readValue_suffix _ _ _ h2).trans (readTmestamp_suffix _ _ _ h1)

/-- The read loop returns within `fuel` iterations when fewer than `2 * fuel` bits are
left, with at most one sample for every 2 bits. -/
theorem decodePoints_progress (fuel : Nat) :
    ∀ (d : Decoder) (acc : List Point), d.rd.length < 2 * fuel →
      ∃ r, decodePoints fuel d acc = some r ∧
        ∀ pts, r = .ok pts → pts.length ≤ acc.length + d.rd.length / 2 := by
  induction fuel with
  | zero => intro d acc h; omega
  | succ k ih =>
    intro d acc h
    rcases DecodePoint_outcome d with ⟨p, d1, hD, hl⟩ | ⟨hD, _⟩
    · obtain ⟨r, hr, hp⟩ := ih d1 (acc ++ [p]) (by omega)
      refine ⟨r, by simp only [decodePoints, hD, hr], fun pts hpts => ?_⟩
      have := hp pts hpts
      simp only [List.length_append, List.length_cons, List.length_nil] at this
      omega
    · refine ⟨.ok acc, by simp only [decodePoints, hD], fun pts hpts => ?_⟩
      cases hpts
      omega

/-! # The claims -/

set_option maxRecDepth 100000

/-! ## C1: round trip -/

/-- C1 (counterexample): the anchor 1 and the single sample (2^38, 12.0) meet every
hypothesis of the round-trip claim (anchor positive, timestamp above the anchor,
timestamp minus anchor below 2^38), yet the encoded block decodes to the empty sample
list for every number of loop iterations: the first delta 2^38 - 1 is the empty-block
sentinel. -/
theorem roundtrip_fails_at_sentinel_delta :
    (0 < 1 ∧ 1 < 2 ^ 38 ∧ 2 ^ 38 - 1 < 2 ^ 38) ∧
    encodeBlock 1 [⟨2 ^ 38, 0x4028000000000000⟩] =
      .ok [0, 0, 0, 0, 0, 0, 0, 1, 255, 255, 255, 255, 253, 0, 160, 0, 0, 0, 0, 0, 3,
           255, 255, 255, 255, 255, 255, 255, 255, 192] ∧
    ∀ fuel, decodeBlock fuel
        [0, 0, 0, 0, 0, 0, 0, 1, 255, 255, 255, 255, 253, 0, 160, 0, 0, 0, 0, 0, 3,
         255, 255, 255, 255, 255, 255, 255, 255, 192]
      ≠ some (.ok (1, [⟨2 ^ 38, 0x4028000000000000⟩])) := by
  refine ⟨by decide, rfl, ?_⟩
  intro fuel
  cases fuel with
  | zero => decide
  | succ k =>
    have h : decodeBlock (k + 1)
        [0, 0, 0, 0, 0, 0, 0, 1, 255, 255, 255, 255, 253, 0, 160, 0, 0, 0, 0, 0, 3,
         255, 255, 255, 255, 255, 255, 255, 255, 192] = some (.ok (1, [])) := rfl
    rw [h]
    decide

/-- C1 (amended): for every anchor `t0` and every list `S` of samples (`uint64`
timestamps, 64-bit value patterns) whose timestamps are all greater than `t0` with
timestamp minus `t0` below `2^38` (non-decreasing or not), whose first timestamp minus
`t0` is not the sentinel `2^38 - 1`, and in which no value needs a new window
descriptor with 32 or more leading zeros, encoding succeeds and decoding the bytes,
with more loop iterations than samples, returns exactly `(t0, S)`. -/
theorem marshal_unmarshal_roundtrip (t0 : Nat) (S : List Point) (ht0 : t0 < 2 ^ 64)
    (hS : ∀ p ∈ S, t0 < p.Timestamp ∧ p.Timestamp < 2 ^ 64 ∧ p.Timestamp - t0 < 2 ^ 38 ∧
      p.Value < 2 ^ 64)
    (hfirst : ∀ p ∈ S.head?, p.Timestamp - t0 ≠ 2 ^ 38 - 1)
    (hfit : descriptorsFit S = true) :
    ∃ bytes, encodeBlock t0 S = .ok bytes ∧
      ∀ fuel, S.length < fuel → decodeBlock fuel bytes = some (.ok (t0, S)) := by
  refine roundtrip_core t0 S ht0 (fun p hp => ?_) (fun p hp => ?_) hfit
  · have := hS p hp
    exact ⟨by omega, this.2.1, this.2.2.2⟩
  · have h1 := hS p (List.mem_of_mem_head? hp)
    have h2 := hfirst p hp
    omega

/-- C1 (witness): the round trip at the anchor and the three samples of the fourth
conformance vector. -/
theorem marshal_unmarshal_roundtrip_witness :
    ∃ bytes, encodeBlock 1427162400000000000
        [⟨1427162462000000000, 0x4028000000000000⟩, ⟨1427162522000000000, 0x4029000000000000⟩,
         ⟨1427162582000000000, 0xC038333333333333⟩] = .ok bytes ∧
      ∀ fuel, 3 < fuel → decodeBlock fuel bytes = some (.ok (1427162400000000000,
        [⟨1427162462000000000, 0x4028000000000000⟩, ⟨1427162522000000000, 0x4029000000000000⟩,
         ⟨1427162582000000000, 0xC038333333333333⟩])) :=
  marshal_unmarshal_roundtrip 1427162400000000000
    [⟨1427162462000000000, 0x4028000000000000⟩, ⟨1427162522000000000, 0x4029000000000000⟩,
     ⟨1427162582000000000, 0xC038333333333333⟩] (by decide) (by decide) (by decide) (by decide)

/-! ## C2, C3: conformance vectors -/

/-- C2: with the anchor 1427162400000000000 and sample timestamps 62 s, 122 s and 182 s
after it, encoding a block (`EncodeHeader`, `EncodePoint` for each sample, `Finish`)
yields exactly the four conformance byte strings of `TestMarshal`: (1) no samples,
(2) one sample 12.0, (3) values 12.0, 12.0, 24.0, (4) values 12.0, 12.5, -24.2. -/
theorem marshal_conformance_vectors :
    encodeBlock 1427162400000000000 [] =
      .ok [0x13, 0xce, 0x4c, 0xa4, 0x30, 0xcb, 0x40, 0x00, 0xff, 0xff, 0xff, 0xff, 0xfc,
           0x00, 0x00, 0x00, 0x00, 0x00, 0x00, 0x00, 0x00] ∧
    encodeBlock 1427162400000000000 [⟨1427162400000000000 + 62000000000, 0x4028000000000000⟩] =
      .ok [0x13, 0xce, 0x4c, 0xa4, 0x30, 0xcb, 0x40, 0x00, 0x39, 0xbd, 0xf3, 0xb0, 0x01,
           0x00, 0xa0, 0x00, 0x00, 0x00, 0x00, 0x00, 0x03, 0xff, 0xff, 0xff, 0xff, 0xff,
           0xff, 0xff, 0xff, 0xc0] ∧
    encodeBlock 1427162400000000000
        [⟨1427162400000000000 + 62000000000, 0x4028000000000000⟩,
         ⟨1427162400000000000 + 122000000000, 0x4028000000000000⟩,
         ⟨1427162400000000000 + 182000000000, 0x4038000000000000⟩] =
      .ok [0x13, 0xce, 0x4c, 0xa4, 0x30, 0xcb, 0x40, 0x00, 0x39, 0xbd, 0xf3, 0xb0, 0x01,
           0x00, 0xa0, 0x00, 0x00, 0x00, 0x00, 0x00, 0x03, 0xff, 0xff, 0xff, 0xff, 0xe2,
           0x32, 0x9b, 0x00, 0x0d, 0x60, 0xff, 0xff, 0xff, 0xff, 0xff, 0xff, 0xff, 0xff,
           0xfc] ∧
    encodeBlock 1427162400000000000
        [⟨1427162400000000000 + 62000000000, 0x4028000000000000⟩,
         ⟨1427162400000000000 + 122000000000, 0x4029000000000000⟩,
         ⟨1427162400000000000 + 182000000000, 0xC038333333333333⟩] =
      .ok [0x13, 0xce, 0x4c, 0xa4, 0x30, 0xcb, 0x40, 0x00, 0x39, 0xbd, 0xf3, 0xb0, 0x01,
           0x00, 0xa0, 0x00, 0x00, 0x00, 0x00, 0x00, 0x03, 0xff, 0xff, 0xff, 0xff, 0xe2,
           0x32, 0x9b, 0x00, 0x37, 0x83, 0x60, 0x02, 0x00, 0x44, 0xcc, 0xcc, 0xcc, 0xcc,
           0xcc, 0xcf, 0xff, 0xff, 0xff, 0xff, 0xff, 0xff, 0xff, 0xff, 0xc0] := by
  refine ⟨?_, ?_, ?_, ?_⟩ <;> decide

/-- C3: decoding each of the four conformance byte strings of `TestUnmarshal`
(`DecodeHeader`, then `DecodePoint` until end-of-block) succeeds, for every number of
loop iterations above the number of samples, and returns the anchor
1427162400000000000 with, respectively, no sample, the sample 12.0, the samples 12.0,
12.0, 24.0 and the samples 12.0, 12.5, -24.2 (as 64-bit patterns) at 62 s, 122 s and
182 s after the anchor; the zero bits after the finish marker are not read. -/
theorem unmarshal_conformance_vectors (k : Nat) :
    decodeBlock (k + 1)
        [0x13, 0xce, 0x4c, 0xa4, 0x30, 0xcb, 0x40, 0x00, 0xff, 0xff, 0xff, 0xff, 0xfc,
         0x00, 0x00, 0x00, 0x00, 0x00, 0x00, 0x00, 0x00] =
      some (.ok (1427162400000000000, [])) ∧
    decodeBlock (k + 2)
        [0x13, 0xce, 0x4c, 0xa4, 0x30, 0xcb, 0x40, 0x00, 0x39, 0xbd, 0xf3, 0xb0, 0x01,
         0x00, 0xa0, 0x00, 0x00, 0x00, 0x00, 0x00, 0x03, 0xff, 0xff, 0xff, 0xff, 0xff,
         0xff, 0xff, 0xff, 0xc0] =
      some (.ok (1427162400000000000,
        [⟨1427162400000000000 + 62000000000, 0x4028000000000000⟩])) ∧
    decodeBlock (k + 4)
        [0x13, 0xce, 0x4c, 0xa4, 0x30, 0xcb, 0x40, 0x00, 0x39, 0xbd, 0xf3, 0xb0, 0x01,
         0x00, 0xa0, 0x00, 0x00, 0x00, 0x00, 0x00, 0x03, 0xff, 0xff, 0xff, 0xff, 0xe2,
         0x32, 0x9b, 0x00, 0x0d, 0x60, 0xff, 0xff, 0xff, 0xff, 0xff, 0xff, 0xff, 0xff,
         0xfc] =
      some (.ok (1427162400000000000,
        [⟨1427162400000000000 + 62000000000, 0x4028000000000000⟩,
         ⟨1427162400000000000 + 122000000000, 0x4028000000000000⟩,
         ⟨1427162400000000000 + 182000000000, 0x4038000000000000⟩])) ∧
    decodeBlock (k + 4)
        [0x13, 0xce, 0x4c, 0xa4, 0x30, 0xcb, 0x40, 0x00, 0x39, 0xbd, 0xf3, 0xb0, 0x01,
         0x00, 0xa0, 0x00, 0x00, 0x00, 0x00, 0x00, 0x03, 0xff, 0xff, 0xff, 0xff, 0xe2,
         0x32, 0x9b, 0x00, 0x37, 0x83, 0x60, 0x02, 0x00, 0x44, 0xcc, 0xcc, 0xcc, 0xcc,
         0xcc, 0xcf, 0xff, 0xff, 0xff, 0xff, 0xff, 0xff, 0xff, 0xff, 0xc0] =
      some (.ok (1427162400000000000,
        [⟨1427162400000000000 + 62000000000, 0x4028000000000000⟩,
         ⟨1427162400000000000 + 122000000000, 0x4029000000000000⟩,
         ⟨1427162400000000000 + 182000000000, 0xC038333333333333⟩])) :=
  ⟨rfl, rfl, rfl, rfl⟩

/-! ## C4: empty block -/

/-- C4: for every anchor `t0`, `EncodeHeader(t0)` followed immediately by `Finish`
writes the 64 bits of `t0`, then 38 one-bits, 64 zero-bits and 2 zero padding bits;
the buffer then holds exactly 21 bytes: the 8 bytes of `t0` in big-endian order
followed by ff ff ff ff fc and eight zero bytes, and these are the bytes of the block
encoded with no samples. -/
theorem empty_block_canonical_form (t0 : Nat) :
    ∃ e0 e1, EncodeHeader NewEncoder t0 = .ok e0 ∧ Finish e0 = .ok e1 ∧
      e1.wr = bitsOfNat t0 64 ++ List.replicate 38 true ++ List.replicate 64 false
        ++ List.replicate 2 false ∧
      bytesOfBits e1.wr =
        [t0 / 2 ^ 56 % 256, t0 / 2 ^ 48 % 256, t0 / 2 ^ 40 % 256, t0 / 2 ^ 32 % 256,
         t0 / 2 ^ 24 % 256, t0 / 2 ^ 16 % 256, t0 / 2 ^ 8 % 256, t0 % 256]
        ++ [0xff, 0xff, 0xff, 0xff, 0xfc, 0, 0, 0, 0, 0, 0, 0, 0] ∧
      (bytesOfBits e1.wr).length = 21 ∧
      encodeBlock t0 [] = .ok (bytesOfBits e1.wr) := by
  have hF := Finish_empty
    { NewEncoder with wr := NewEncoder.wr ++ bitsOfNat t0 64, headerTimestamp := t0 } rfl
  have hpad : (8 - ((NewEncoder.wr ++ bitsOfNat t0 64).length + 102) % 8) % 8 = 2 := by
    simp [NewEncoder, bitsOfNat_length]
  simp only [hpad] at hF
  have hbytes : bytesOfBits (NewEncoder.wr ++ bitsOfNat t0 64 ++
      (List.replicate 38 true ++ List.replicate 64 false ++ List.replicate 2 false)) =
      [t0 / 2 ^ 56 % 256, t0 / 2 ^ 48 % 256, t0 / 2 ^ 40 % 256, t0 / 2 ^ 32 % 256,
         t0 / 2 ^ 24 % 256, t0 / 2 ^ 16 % 256, t0 / 2 ^ 8 % 256, t0 % 256]
        ++ [0xff, 0xff, 0xff, 0xff, 0xfc, 0, 0, 0, 0, 0, 0, 0, 0] := by
    simp only [NewEncoder, List.nil_append]
    rw [bytesOfBits_uint64]
    rfl
  refine ⟨_, _, EncodeHeader_eq _ _, hF, ?_, hbytes, ?_, ?_⟩
  · simp only [NewEncoder, List.nil_append, List.append_assoc]
  · rw [hbytes]; rfl
  · unfold encodeBlock
    simp only [bind, Except.bind, EncodeHeader_eq, encodePoints, hF, pure, Except.pure]

/-! ## C5: terminator of a non-empty block -/

/-- C5 (counterexample): after `EncodeHeader(0)` and `EncodePoint` of the sample
(0, 12.0), a sample has been written, yet the bits `Finish` appends are 38 one-bits,
64 zero-bits and 4 padding zero-bits (the empty-block form); they do not start with
`1111` followed by 64 one-bits: the stored timestamp 0 is read as "no sample yet". -/
theorem finish_after_zero_timestamp_sample :
    (do
      let e0 ← EncodeHeader NewEncoder 0
      let e1 ← EncodePoint e0 ⟨0, 0x4028000000000000⟩
      let e2 ← Finish e1
      pure (e2.wr.take e1.wr.length == e1.wr, e2.wr.drop e1.wr.length)) =
      .ok (true, List.replicate 38 true ++ List.replicate 64 false ++ List.replicate 4 false) ∧
    (List.replicate 38 true ++ List.replicate 64 false ++ List.replicate 4 false).take 68 ≠
      [true, true, true, true] ++ List.replicate 64 true := by
  constructor
  · rfl
  · decide

/-- C5 (amended): for every encoder on which the latest `EncodePoint` wrote a sample
with a non-zero timestamp, `Finish` appends exactly the bits `1111`, then 64
one-bits, then a single `0` bit, followed by fewer than 8 zero bits that bring the
stream to a byte boundary. -/
theorem finish_after_sample (e : Encoder) (p : Point) (e1 : Encoder)
    (hp : p.Timestamp ≠ 0) (hE : EncodePoint e p = .ok e1) :
    Finish e1 = .ok { e1 with wr := e1.wr ++ ([true, true, true, true]
      ++ List.replicate 64 true ++ [false]
      ++ List.replicate ((8 - (e1.wr.length + 69) % 8) % 8) false) } ∧
    (8 - (e1.wr.length + 69) % 8) % 8 < 8 ∧
    (e1.wr ++ ([true, true, true, true] ++ List.replicate 64 true ++ [false]
      ++ List.replicate ((8 - (e1.wr.length + 69) % 8) % 8) false)).length % 8 = 0 := by
  obtain ⟨e2, h2, hts, _, _⟩ := EncodePoint_frame e p
  rw [hE] at h2
  cases h2
  refine ⟨Finish_nonempty e1 (by rw [hts]; exact hp), by omega, ?_⟩
  simp only [List.length_append, List.length_replicate, List.length_cons, List.length_nil]
  omega

/-- C5 (witness): `Finish` after the first sample (5, 7) written by a fresh encoder. -/
theorem finish_after_sample_witness :
    Finish { NewEncoder with wr := bitsOfNat 5 38 ++ bitsOfNat 7 64, storedTimestamp := 5,
                             storedDelta := 5, storedValueBits := 7 } =
      .ok { NewEncoder with
        wr := (bitsOfNat 5 38 ++ bitsOfNat 7 64) ++ ([true, true, true, true]
          ++ List.replicate 64 true ++ [false] ++ List.replicate 5 false),
        storedTimestamp := 5, storedDelta := 5, storedValueBits := 7 } :=
  (finish_after_sample NewEncoder ⟨5, 7⟩
    { NewEncoder with wr := bitsOfNat 5 38 ++ bitsOfNat 7 64, storedTimestamp := 5,
                      storedDelta := 5, storedValueBits := 7 } (by decide) rfl).1

/-! ## C6: first-sample path -/

/-- C6 (counterexample): after `EncodeHeader(1)` and a first sample with timestamp 0,
the second sample (5, 24.0) is again written in the first-sample form (the 38-bit
delta 4 from the anchor followed by the raw 64-bit value, 102 bits), although a sample
was encoded before it; the timestamp-section form for the same encoder state and
sample (`writePoint`) would be the 22 bits `10`, 7-bit 6, `11`, 5-bit 11, 6-bit 1, `1`. -/
theorem first_form_repeats_after_zero_timestamp :
    (do
      let e0 ← EncodeHeader NewEncoder 1
      let e1 ← EncodePoint e0 ⟨0, 0x4028000000000000⟩
      let e2 ← EncodePoint e1 ⟨5, 0x4038000000000000⟩
      let e3 ← writePoint e1 ⟨5, 0x4038000000000000⟩
      pure (e2.wr.drop e1.wr.length, e3.wr.drop e1.wr.length)) =
    .ok (bitsOfNat 4 38 ++ bitsOfNat 0x4038000000000000 64,
         [true, false] ++ bitsOfNat 6 7 ++ [true, true] ++ bitsOfNat 11 5 ++ bitsOfNat 1 6
           ++ [true]) := by
  rfl

/-- C6 (amended): after `EncodeHeader(t0)` and any sequence `pre` of `EncodePoint`
calls whose samples have non-zero timestamps (and 64-bit values), the encoder has no
stored sample exactly when `pre` is empty; the next sample `p` is then written as the
38-bit first delta followed by its raw 64-bit value, and otherwise as a timestamp
section, made of one of the selectors `0`, `10`, `110`, `1110`, `1111` and the payload
of that bucket, followed by a value section. -/
theorem first_sample_path_exclusive (t0 : Nat) (pre : List Point) (p : Point)
    (hpre : ∀ q ∈ pre, q.Timestamp ≠ 0 ∧ q.Value < 2 ^ 64) (hv : p.Value < 2 ^ 64) :
    ∃ e0 e, EncodeHeader NewEncoder t0 = .ok e0 ∧ encodePoints e0 pre = .ok e ∧
      (e.storedTimestamp = 0 ↔ pre = []) ∧
      (pre = [] → ∃ e1, EncodePoint e p = .ok e1 ∧
        e1.wr = e.wr ++ (bitsOfNat ((p.Timestamp + 2 ^ 64 - t0) % 2 ^ 64) 38
          ++ bitsOfNat p.Value 64)) ∧
      (pre ≠ [] → ∃ e1, EncodePoint e p = .ok e1 ∧
        e1.wr = e.wr ++ ((bucketOf (dodOf e p.Timestamp)).selector
          ++ bitsOfNat (payloadOf (bucketOf (dodOf e p.Timestamp)).width (dodOf e p.Timestamp))
              (bucketOf (dodOf e p.Timestamp)).width
          ++ valueSection e.storedLeadingZeros e.storedTrailingZeros
              (e.storedValueBits ^^^ p.Value)) ∧
        (bucketOf (dodOf e p.Timestamp)).selector ∈
          [[false], [true, false], [true, true, false], [true, true, true, false],
           [true, true, true, true]]) := by
  obtain ⟨e0, he0, hz0, hh0⟩ : ∃ e0, EncodeHeader NewEncoder t0 = .ok e0 ∧
      e0.storedTimestamp = 0 ∧ e0.headerTimestamp = t0 := ⟨_, EncodeHeader_eq _ _, rfl, rfl⟩
  obtain ⟨e, he, hh, hnil, hlast⟩ := encodePoints_frame pre e0
  refine ⟨e0, e, he0, he, ?_, ?_, ?_⟩
  · constructor
    · intro hz
      by_contra hne
      obtain ⟨q, hq⟩ : ∃ q, q ∈ pre.getLast? := by
        cases h : pre.getLast? with
        | none => exact absurd (List.getLast?_eq_none_iff.mp h) hne
        | some q => exact ⟨q, rfl⟩
      have := (hlast q hq).1
      exact (hpre q (List.mem_of_mem_getLast? hq)).1 (by rw [← this]; exact hz)
    · intro hp; rw [hnil hp]; exact hz0
  · intro hp
    rw [hnil hp]
    have h1 : EncodePoint e0 p = writeFirst e0 p := by
      unfold EncodePoint; rw [if_pos hz0]
    rw [h1, writeFirst_eq, hh0]
    exact ⟨_, rfl, rfl⟩
  · intro hne
    obtain ⟨q, hq⟩ : ∃ q, q ∈ pre.getLast? := by
      cases h : pre.getLast? with
      | none => exact absurd (List.getLast?_eq_none_iff.mp h) hne
      | some q => exact ⟨q, rfl⟩
    have hq2 := hpre q (List.mem_of_mem_getLast? hq)
    have hl := hlast q hq
    refine ⟨_, EncodePoint_later e p (by rw [hl.1]; exact hq2.1) (by rw [hl.2]; exact hq2.2) hv,
      ?_, ?_⟩
    · simp only [tsSection, List.append_assoc]
    · cases bucketOf (dodOf e p.Timestamp) <;> simp [Bucket.selector]

/-- C6 (witness): the amended property after the anchor 1427162400000000000 and the
first sample of the conformance vectors, for the second sample. -/
theorem first_sample_path_exclusive_witness :
    ∃ e0 e, EncodeHeader NewEncoder 1427162400000000000 = .ok e0 ∧
      encodePoints e0 [⟨1427162462000000000, 0x4028000000000000⟩] = .ok e ∧
      (e.storedTimestamp = 0 ↔ [(⟨1427162462000000000, 0x4028000000000000⟩ : Point)] = []) ∧
      ([(⟨1427162462000000000, 0x4028000000000000⟩ : Point)] = [] → ∃ e1,
        EncodePoint e ⟨1427162522000000000, 0x4029000000000000⟩ = .ok e1 ∧
        e1.wr = e.wr ++ (bitsOfNat
          ((1427162522000000000 + 2 ^ 64 - 1427162400000000000) % 2 ^ 64) 38
          ++ bitsOfNat 0x4029000000000000 64)) ∧
      ([(⟨1427162462000000000, 0x4028000000000000⟩ : Point)] ≠ [] → ∃ e1,
        EncodePoint e ⟨1427162522000000000, 0x4029000000000000⟩ = .ok e1 ∧
        e1.wr = e.wr ++ ((bucketOf (dodOf e 1427162522000000000)).selector
          ++ bitsOfNat (payloadOf (bucketOf (dodOf e 1427162522000000000)).width
                (dodOf e 1427162522000000000))
              (bucketOf (dodOf e 1427162522000000000)).width
          ++ valueSection e.storedLeadingZeros e.storedTrailingZeros
              (e.storedValueBits ^^^ 0x4029000000000000)) ∧
        (bucketOf (dodOf e 1427162522000000000)).selector ∈
          [[false], [true, false], [true, true, false], [true, true, true, false],
           [true, true, true, true]]) :=
  first_sample_path_exclusive 1427162400000000000
    [⟨1427162462000000000, 0x4028000000000000⟩] ⟨1427162522000000000, 0x4029000000000000⟩
    (by decide) (by decide)

/-! ## C7: timestamp buckets -/

/-- C7: every signed 64-bit delta-of-delta `dod` arises in `writeTimestampDeltaDelta`;
whenever it does, the bits written are the selector of the first bucket, in the order
A (`dod = 0`), B (-63..64), C (-255..256), D (-2047..2048), E (otherwise), whose range
contains `dod`, followed by the payload of `dod` in that bucket's width; and
`readTmestamp` applied to those bits consumes exactly them, does not report
end-of-block, and adds `dod` modulo `2^64` to the stored delta.  At the boundary values
-2048, -2047, -256, -255, -64, -63, 0, 1, 64, 65, 256, 257, 2048, 2049 and 2^40 the
buckets are E, D, D, C, C, B, A, B, B, C, C, D, D, E, E. -/
theorem bucket_selection_and_recovery (dod : Int) (hlo : -2 ^ 63 ≤ dod) (hhi : dod < 2 ^ 63) :
    (∃ e ts, ts < 2 ^ 64 ∧ dodOf e ts = dod) ∧
    (∀ e ts, dodOf e ts = dod →
      writeTimestampDeltaDelta e ts = .ok { e with
        wr := e.wr ++ ((bucketOf dod).selector
          ++ bitsOfNat (payloadOf (bucketOf dod).width dod) (bucketOf dod).width),
        storedTimestamp := ts, storedDelta := deltaOf e ts }) ∧
    (∀ (d : Decoder) (rest : List Bool),
      d.rd = ((bucketOf dod).selector
          ++ bitsOfNat (payloadOf (bucketOf dod).width dod) (bucketOf dod).width) ++ rest →
      readTmestamp d =
        .ok ((d.storedTimestamp + (d.storedDelta + toUint64 dod) % 2 ^ 64) % 2 ^ 64,
          { d with rd := rest,
                   storedDelta := (d.storedDelta + toUint64 dod) % 2 ^ 64,
                   storedTimestamp :=
                     (d.storedTimestamp + (d.storedDelta + toUint64 dod) % 2 ^ 64) % 2 ^ 64 })) ∧
    (∀ sd : Nat, (((sd + toUint64 dod) % 2 ^ 64 : Nat) : Int) = ((sd : Int) + dod) % 2 ^ 64) ∧
    [(-2048 : Int), -2047, -256, -255, -64, -63, 0, 1, 64, 65, 256, 257, 2048, 2049,
        2 ^ 40].map bucketOf =
      [Bucket.E, Bucket.D, Bucket.D, Bucket.C, Bucket.C, Bucket.B, Bucket.A, Bucket.B,
       Bucket.B, Bucket.C, Bucket.C, Bucket.D, Bucket.D, Bucket.E, Bucket.E] := by
  refine ⟨⟨NewEncoder, toUint64 dod, ?_, ?_⟩, ?_, ?_, ?_, by decide⟩
  · unfold toUint64; omega
  · unfold dodOf deltaOf
    simp only [NewEncoder]
    unfold wrapInt64 toInt64 toUint64
    split <;> split <;> split <;> omega
  · intro e ts h
    rw [writeTimestampDeltaDelta_eq, h]
    rfl
  · intro d rest hrd
    exact readTmestamp_tsSection d dod rest hrd hlo hhi
  · intro sd
    unfold toUint64
    omega

/-- C7 (witness): the property at the delta-of-delta 2^40, which lies in bucket E. -/
theorem bucket_selection_and_recovery_witness :
    (∃ e ts, ts < 2 ^ 64 ∧ dodOf e ts = 2 ^ 40) ∧ bucketOf (2 ^ 40) = Bucket.E ∧
    (∀ e ts, dodOf e ts = 2 ^ 40 →
      writeTimestampDeltaDelta e ts = .ok { e with
        wr := e.wr ++ ((bucketOf (2 ^ 40)).selector
          ++ bitsOfNat (payloadOf (bucketOf (2 ^ 40)).width (2 ^ 40)) (bucketOf (2 ^ 40)).width),
        storedTimestamp := ts, storedDelta := deltaOf e ts }) :=
  ⟨(bucket_selection_and_recovery (2 ^ 40) (by decide) (by decide)).1, by decide,
    (bucket_selection_and_recovery (2 ^ 40) (by decide) (by decide)).2.1⟩

/-! ## C8, C9: values -/

/-- C8 (failing input): the anchor 1 and the samples (2, 12.0) and (3, v) where `v`
differs from 12.0 in the lowest mantissa bit only.  The XOR is 1, with 63 leading
zeros; `writeValueXor` writes the count in 5 bits (as 31), and decoding the encoder's
output returns the second value with bit 32 flipped instead of bit 0. -/
theorem value_roundtrip_fails_at_low_bit_change :
    encodeBlock 1 [⟨2, 0x4028000000000000⟩, ⟨3, 0x4028000000000001⟩] =
      .ok [0, 0, 0, 0, 0, 0, 0, 1, 0, 0, 0, 0, 5, 0, 160, 0, 0, 0, 0, 0, 1, 252, 31, 255,
           255, 255, 255, 255, 255, 255, 255, 128] ∧
    decodeBlock 3 [0, 0, 0, 0, 0, 0, 0, 1, 0, 0, 0, 0, 5, 0, 160, 0, 0, 0, 0, 0, 1, 252, 31,
           255, 255, 255, 255, 255, 255, 255, 255, 128] =
      some (.ok (1, [⟨2, 0x4028000000000000⟩, ⟨3, 0x4028000100000000⟩])) ∧
    numOfLeadingZeros (0x4028000000000000 ^^^ 0x4028000000000001) = 63 :=
  ⟨rfl, rfl, rfl⟩

/-- C9: for every anchor `t0`, every non-zero timestamp `ts` whose delta from `t0`
(modulo `2^64`) is below `2^38 - 1`, and every 64-bit pattern `v`,
`EncodeHeader(t0)`, `EncodePoint((ts, v))`, `Finish` succeed, and on the bytes written
`DecodeHeader` returns `t0`, the first `DecodePoint` returns exactly `(ts, v)` and the
second reports end-of-block. -/
theorem single_sample_block_roundtrip (t0 ts v : Nat) (ht0 : t0 < 2 ^ 64) (hts : ts < 2 ^ 64)
    (hv : v < 2 ^ 64) (hnz : ts ≠ 0) (hdelta : (ts + 2 ^ 64 - t0) % 2 ^ 64 < 2 ^ 38 - 1) :
    ∃ e0 e1 e2 d0 d1, EncodeHeader NewEncoder t0 = .ok e0 ∧
      EncodePoint e0 ⟨ts, v⟩ = .ok e1 ∧ Finish e1 = .ok e2 ∧
      DecodeHeader (NewDecoder (bitsOfBytes (bytesOfBits e2.wr))) = .ok (t0, d0) ∧
      DecodePoint d0 = .ok (⟨ts, v⟩, d1) ∧ DecodePoint d1 = .error .eof := by
  obtain ⟨e0, he0, hz0, hh0, hl0, hw0⟩ : ∃ e0, EncodeHeader NewEncoder t0 = .ok e0 ∧
      e0.storedTimestamp = 0 ∧ e0.headerTimestamp = t0 ∧ e0.storedLeadingZeros = 127 ∧
      e0.wr = bitsOfNat t0 64 :=
    ⟨_, EncodeHeader_eq _ _, rfl, rfl, rfl, rfl⟩
  obtain ⟨e1, hE1, hwr1, hts1, _, _, _, hdec1⟩ :=
    first_step e0 ⟨ts, v⟩ hz0 (by rw [hh0]; exact ht0) hts hv (by rw [hh0]; exact hdelta)
  have hnz1 : e1.storedTimestamp ≠ 0 := by rw [hts1]; exact hnz
  have hF := Finish_nonempty e1 hnz1
  obtain ⟨n, hn⟩ := Flush_aligned (e1.wr ++
    ([true, true, true, true] ++ List.replicate 64 true ++ [false])) false
  simp only [hh0] at hwr1 hdec1
  generalize hfb : (bitsOfNat ((ts + 2 ^ 64 - t0) % 2 ^ 64) 38 ++ bitsOfNat v 64) = fb
    at hwr1 hdec1
  have hlen : (e1.wr ++ ([true, true, true, true] ++ List.replicate 64 true ++ [false] ++
        List.replicate ((8 - (e1.wr.length + 69) % 8) % 8) false)).length = 8 * n := by
    rw [← hn]
    simp only [List.length_append, List.length_replicate, List.length_cons, List.length_nil]
    omega
  have hw : e1.wr ++ ([true, true, true, true] ++ List.replicate 64 true ++ [false] ++
        List.replicate ((8 - (e1.wr.length + 69) % 8) % 8) false) =
      bitsOfNat t0 64 ++ (fb ++ ([true, true, true, true] ++ List.replicate 64 true ++
        ([false] ++ List.replicate ((8 - (e1.wr.length + 69) % 8) % 8) false))) := by
    rw [hwr1, hw0]; simp only [List.append_assoc]
  have hD0 := DecodeHeader_eq (NewDecoder (e1.wr ++ ([true, true, true, true]
      ++ List.replicate 64 true ++ [false]
      ++ List.replicate ((8 - (e1.wr.length + 69) % 8) % 8) false))) t0 _ ht0
      (by rw [hw]; rfl)
  obtain ⟨d1, hD1, hrd1, hs1⟩ := hdec1
    { NewDecoder (e1.wr ++ ([true, true, true, true] ++ List.replicate 64 true ++ [false]
        ++ List.replicate ((8 - (e1.wr.length + 69) % 8) % 8) false)) with
      rd := fb ++ ([true, true, true, true] ++ List.replicate 64 true ++
        ([false] ++ List.replicate ((8 - (e1.wr.length + 69) % 8) % 8) false)),
      headerTimestamp := t0 }
    ([true, true, true, true] ++ List.replicate 64 true ++
        ([false] ++ List.replicate ((8 - (e1.wr.length + 69) % 8) % 8) false))
    rfl rfl (Or.inl (by rw [hl0]; norm_num)) rfl
  refine ⟨e0, e1, _, _, d1, he0, hE1, hF, ?_, hD1, ?_⟩
  · simp only
    rw [bitsOfBytes_bytesOfBits n _ hlen]
    exact hD0
  · exact DecodePoint_marker_E d1 _ (by rw [hs1.ts]; exact hnz1) hrd1

/-- C9 (witness): the single sample whose value is the quiet NaN 0x7FF8000000000000. -/
theorem single_sample_block_roundtrip_witness :
    ∃ e0 e1 e2 d0 d1, EncodeHeader NewEncoder 1427162400000000000 = .ok e0 ∧
      EncodePoint e0 ⟨1427162462000000000, 0x7FF8000000000000⟩ = .ok e1 ∧
      Finish e1 = .ok e2 ∧
      DecodeHeader (NewDecoder (bitsOfBytes (bytesOfBits e2.wr))) =
        .ok (1427162400000000000, d0) ∧
      DecodePoint d0 = .ok (⟨1427162462000000000, 0x7FF8000000000000⟩, d1) ∧
      DecodePoint d1 = .error .eof :=
  single_sample_block_roundtrip 1427162400000000000 1427162462000000000 0x7FF8000000000000
    (by decide) (by decide) (by decide) (by decide) (by decide)

/-! ## C10: end-of-block and exhausted input -/

/-- C10 (counterexample): the block of the third conformance vector (three samples)
cut off after 30 of its 40 bytes, well before its terminator, is decoded as a success
with the first two samples: the reader's `io.EOF` at the end of the input is taken for
end-of-block.  Likewise `DecodePoint` on a decoder with no input left reports
`io.EOF` although no finish marker was read. -/
theorem truncated_block_decodes_as_success :
    encodeBlock 1427162400000000000
        [⟨1427162462000000000, 0x4028000000000000⟩, ⟨1427162522000000000, 0x4028000000000000⟩,
         ⟨1427162582000000000, 0x4038000000000000⟩] =
      .ok ([0x13, 0xce, 0x4c, 0xa4, 0x30, 0xcb, 0x40, 0x00, 0x39, 0xbd, 0xf3, 0xb0, 0x01,
            0x00, 0xa0, 0x00, 0x00, 0x00, 0x00, 0x00, 0x03, 0xff, 0xff, 0xff, 0xff, 0xe2,
            0x32, 0x9b, 0x00, 0x0d] ++
           [0x60, 0xff, 0xff, 0xff, 0xff, 0xff, 0xff, 0xff, 0xff, 0xfc]) ∧
    decodeBlock 4 [0x13, 0xce, 0x4c, 0xa4, 0x30, 0xcb, 0x40, 0x00, 0x39, 0xbd, 0xf3, 0xb0, 0x01,
            0x00, 0xa0, 0x00, 0x00, 0x00, 0x00, 0x00, 0x03, 0xff, 0xff, 0xff, 0xff, 0xe2,
            0x32, 0x9b, 0x00, 0x0d] =
      some (.ok (1427162400000000000,
        [⟨1427162462000000000, 0x4028000000000000⟩,
         ⟨1427162522000000000, 0x4028000000000000⟩])) ∧
    DecodePoint { NewDecoder [] with storedTimestamp := 1427162522000000000 } = .error .eof :=
  ⟨rfl, rfl, rfl⟩

/-- C10 (amended): `DecodePoint` reports `io.EOF` at the two finish markers and also,
with the same value, whenever the reader runs out of bits; it never returns the format
error, and an `io.EOF` away from a finish marker comes from exhausted input only: on the
same input followed by 336 zero bits the call returns a sample.  Consequently the
read-until-END loop never surfaces an error on an input of at least 8 bytes: with more
loop iterations than input bits it returns an anchor and the samples decoded so far as
a success, whether or not the block was cut off before its terminator. -/
theorem eof_at_markers_or_exhausted_input (data : List Nat) (fuel : Nat)
    (h8 : 8 ≤ data.length) (hfuel : 8 * data.length < fuel) :
    (∃ t0 pts, decodeBlock fuel data = some (.ok (t0, pts))) ∧
    (∀ d, AtFinishMarker d → DecodePoint d = .error .eof) ∧
    (∀ d : Decoder, d.rd = [] → DecodePoint d = .error .eof) ∧
    (∀ d, DecodePoint d ≠ .error .invalidBitHeader) ∧
    (∀ d, DecodePoint d = .error .eof → AtFinishMarker d ∨
      ∃ p d1, DecodePoint { d with rd := d.rd ++ List.replicate 336 false } = .ok (p, d1)) := by
  refine ⟨decodeBlock_total data fuel h8 hfuel, ?_, ?_, ?_, ?_⟩
  · intro d h
    rcases h with ⟨hz, tail, ht⟩ | ⟨hz, tail, ht⟩
    · exact DecodePoint_marker_first d tail hz ht
    · exact DecodePoint_marker_E d tail hz ht
  · intro d h
    rcases DecodePoint_outcome d with ⟨p, d1, _, hl⟩ | ⟨hD, _⟩
    · rw [h] at hl; simp at hl
    · exact hD
  · intro d h
    rcases DecodePoint_outcome d with ⟨p, d1, hD, _⟩ | ⟨hD, _⟩
    · rw [hD] at h; cases h
    · rw [hD] at h; cases h
  · intro d _
    rcases DecodePoint_outcome { d with rd := d.rd ++ List.replicate 336 false }
      with ⟨p, d1, hD, _⟩ | ⟨_, hl | hm⟩
    · exact Or.inr ⟨p, d1, hD⟩
    · simp only [List.length_append, List.length_replicate] at hl; omega
    · exact Or.inl (AtFinishMarker_of_append_zeros d 336 (by norm_num) hm)

/-- C10 (witness): the first 30 bytes of the third conformance vector, with 241 loop
iterations. -/
theorem eof_at_markers_or_exhausted_input_witness :
    ∃ t0 pts, decodeBlock 241
      [0x13, 0xce, 0x4c, 0xa4, 0x30, 0xcb, 0x40, 0x00, 0x39, 0xbd, 0xf3, 0xb0, 0x01,
       0x00, 0xa0, 0x00, 0x00, 0x00, 0x00, 0x00, 0x03, 0xff, 0xff, 0xff, 0xff, 0xe2,
       0x32, 0x9b, 0x00, 0x0d] = some (.ok (t0, pts)) :=
  (eof_at_markers_or_exhausted_input
    [0x13, 0xce, 0x4c, 0xa4, 0x30, 0xcb, 0x40, 0x00, 0x39, 0xbd, 0xf3, 0xb0, 0x01,
     0x00, 0xa0, 0x00, 0x00, 0x00, 0x00, 0x00, 0x03, 0xff, 0xff, 0xff, 0xff, 0xe2,
     0x32, 0x9b, 0x00, 0x0d] 241 (by decide) (by decide)).1

/-! ## C11: reuse of the XOR window -/

/-- C11: for every encoder state with a 64-bit stored value and every next 64-bit value
whose XOR with the stored value bits is non-zero, has at least the stored number of
leading zeros and at least the stored number of trailing zeros, `writeValueXor` appends
exactly the bits 1, 0 and then `xor >> storedTrailingZeros` in
`64 - storedLeadingZeros - storedTrailingZeros` bits, without any 5-bit or 6-bit
descriptor field; it stores the new value bits and leaves the stored window as it is.
That width lies in 1..64 and its `uint8` computation does not wrap.  The payload, read
as a number and shifted left by the stored trailing-zero count, is `xor` again: no set
bit of `xor` is lost. -/
theorem xor_window_reuse (e : Encoder) (v : Nat) (hsv : e.storedValueBits < 2 ^ 64)
    (hv : v < 2 ^ 64) (hx : e.storedValueBits ^^^ v ≠ 0)
    (hL : e.storedLeadingZeros ≤ numOfLeadingZeros (e.storedValueBits ^^^ v))
    (hT : e.storedTrailingZeros ≤ numOfTrailingZeros (e.storedValueBits ^^^ v)) :
    writeValueXor e v = .ok { e with
      wr := e.wr ++ ([true, false] ++
        bitsOfNat ((e.storedValueBits ^^^ v) / 2 ^ e.storedTrailingZeros)
          (64 - e.storedLeadingZeros - e.storedTrailingZeros)),
      storedValueBits := v } ∧
    1 ≤ 64 - e.storedLeadingZeros - e.storedTrailingZeros ∧
    e.storedLeadingZeros + e.storedTrailingZeros ≤ 63 ∧
    sub8 (sub8 64 e.storedLeadingZeros) e.storedTrailingZeros =
      64 - e.storedLeadingZeros - e.storedTrailingZeros ∧
    natOfBits 0 (bitsOfNat ((e.storedValueBits ^^^ v) / 2 ^ e.storedTrailingZeros)
      (64 - e.storedLeadingZeros - e.storedTrailingZeros)) * 2 ^ e.storedTrailingZeros =
      e.storedValueBits ^^^ v := by
  have hx64 : e.storedValueBits ^^^ v < 2 ^ 64 := Nat.xor_lt_two_pow hsv hv
  have hw := window_facts _ _ _ hx hx64 hL hT
  refine ⟨?_, by omega, hw.1, sub8_window _ _ (by omega), ?_⟩
  · rw [writeValueXor_eq e v hsv hv]
    simp only [valueSection, windowAfter, if_neg hx, if_pos (And.intro hL hT)]
  · rw [natOfBits_bitsOfNat, Nat.zero_mul, Nat.zero_add, Nat.mod_eq_of_lt hw.2.1]
    exact hw.2.2

/-- C11 (witness): with the stored window (11, 52) and the stored value 12.0, the value
24.0 (XOR `0x0010000000000000`, 11 leading and 52 trailing zeros) is written as the
three bits 1, 0, 1. -/
theorem xor_window_reuse_witness :
    writeValueXor ⟨[], 1, 5, 4, 11, 52, 0x4028000000000000⟩ 0x4038000000000000 =
      .ok ⟨[true, false, true], 1, 5, 4, 11, 52, 0x4038000000000000⟩ :=
  (xor_window_reuse ⟨[], 1, 5, 4, 11, 52, 0x4028000000000000⟩ 0x4038000000000000
    (by decide) (by decide) (by decide) (by decide) (by decide)).1

/-! ## C12: sign rule of the decoder -/

/-- C12 (counterexample): the 7-bit payload `u = 64 = 2^6` satisfies `u ≥ 2^(w-1)`, so
the two's-complement rule of the claim gives the delta-of-delta `64 - 128 = -64` and,
from the stored delta 100, the new delta 36.  `readTmestamp` on the selector 1, 0 and
that payload makes the stored delta 164 and the timestamp 1164: it decodes the payload
as `+64`.  These are the bits the encoder writes for the delta-of-delta `+64`, the upper
end of its 7-bit bucket `-63..64`. -/
theorem sign_rule_fails_at_half_range :
    readTmestamp ⟨[true, false] ++ bitsOfNat 64 7, 0, 1000, 100, 0, 0, 0⟩ =
      .ok (1164, ⟨[], 0, 1164, 164, 0, 0, 0⟩) ∧
    2 ^ (7 - 1) ≤ 64 ∧
    (100 + toUint64 ((64 : Int) - 2 ^ 7)) % 2 ^ 64 = 36 ∧
    tsSection 64 = [true, false] ++ bitsOfNat 64 7 := by
  refine ⟨by rfl, by decide, by rfl, by rfl⟩

/-- C12 (amended): for every payload width `w` in {7, 9, 12} (buckets B, C, D) and every
`w`-bit unsigned payload `u` read by `readTmestamp` after that bucket's selector, the
decoded delta-of-delta is `u - 2^w` when `u > 2^(w-1)` and `u` otherwise (so
`u = 2^(w-1)` decodes as `+2^(w-1)`); it is added modulo `2^64` to the stored delta, and
the new delta to the stored timestamp. -/
theorem decoder_sign_rule (d : Decoder) (b : Bucket) (u : Nat) (rest : List Bool)
    (hb : b = .B ∨ b = .C ∨ b = .D) (hu : u < 2 ^ b.width)
    (hrd : d.rd = b.selector ++ bitsOfNat u b.width ++ rest) :
    (b.width = 7 ∨ b.width = 9 ∨ b.width = 12) ∧
    readTmestamp d =
      .ok ((d.storedTimestamp + (d.storedDelta + toUint64
            (if 2 ^ (b.width - 1) < u then (u : Int) - 2 ^ b.width else (u : Int))) % 2 ^ 64)
          % 2 ^ 64,
        { d with rd := rest,
                 storedDelta := (d.storedDelta + toUint64
                   (if 2 ^ (b.width - 1) < u then (u : Int) - 2 ^ b.width else (u : Int)))
                   % 2 ^ 64,
                 storedTimestamp := (d.storedTimestamp + (d.storedDelta + toUint64
                   (if 2 ^ (b.width - 1) < u then (u : Int) - 2 ^ b.width else (u : Int)))
                   % 2 ^ 64) % 2 ^ 64 }) := by
  obtain ⟨rd, ht, st, sd, sl, sz, sv⟩ := d
  simp only at hrd
  subst hrd
  rw [List.append_assoc]
  unfold readTmestamp
  have hsel := bitsToRead_selector ⟨[], ht, st, sd, sl, sz, sv⟩ b (bitsOfNat u b.width ++ rest)
  simp only at hsel
  simp only [bind, Except.bind, hsel]
  rcases hb with h | h | h <;> subst h
  · simp only [Bucket.width] at hu ⊢
    refine ⟨by simp, ?_⟩
    simp only [ReadBits_bitsOfNat _ 7 _ (by norm_num), Nat.mod_eq_of_lt hu]
    rw [if_pos (by norm_num), if_neg (by norm_num)]
    split
    · rename_i h
      have key : toInt64 ((u + 2 ^ 64 - 2 ^ 7) % 2 ^ 64) = (u : Int) - 2 ^ 7 := by
        unfold toInt64; norm_num at h hu ⊢; split_ifs <;> omega
      rw [key]; rfl
    · rename_i h
      have key : toInt64 u = (u : Int) := by
        unfold toInt64; norm_num at h hu ⊢; omega
      rw [key]; rfl
  · simp only [Bucket.width] at hu ⊢
    refine ⟨by simp, ?_⟩
    simp only [ReadBits_bitsOfNat _ 9 _ (by norm_num), Nat.mod_eq_of_lt hu]
    rw [if_pos (by norm_num), if_neg (by norm_num)]
    split
    · rename_i h
      have key : toInt64 ((u + 2 ^ 64 - 2 ^ 9) % 2 ^ 64) = (u : Int) - 2 ^ 9 := by
        unfold toInt64; norm_num at h hu ⊢; split_ifs <;> omega
      rw [key]; rfl
    · rename_i h
      have key : toInt64 u = (u : Int) := by
        unfold toInt64; norm_num at h hu ⊢; omega
      rw [key]; rfl
  · simp only [Bucket.width] at hu ⊢
    refine ⟨by simp, ?_⟩
    simp only [ReadBits_bitsOfNat _ 12 _ (by norm_num), Nat.mod_eq_of_lt hu]
    rw [if_pos (by norm_num), if_neg (by norm_num)]
    split
    · rename_i h
      have key : toInt64 ((u + 2 ^ 64 - 2 ^ 12) % 2 ^ 64) = (u : Int) - 2 ^ 12 := by
        unfold toInt64; norm_num at h hu ⊢; split_ifs <;> omega
      rw [key]; rfl
    · rename_i h
      have key : toInt64 u = (u : Int) := by
        unfold toInt64; norm_num at h hu ⊢; omega
      rw [key]; rfl

/-- C12 (witness): the 7-bit payload 100 is above `2^6`, decodes as `100 - 128 = -28`
and takes the stored delta from 100 to 72 and the stored timestamp from 1000 to 1072. -/
theorem decoder_sign_rule_witness :
    readTmestamp ⟨[true, false] ++ bitsOfNat 100 7 ++ [], 0, 1000, 100, 0, 0, 0⟩ =
      .ok (1072, ⟨[], 0, 1072, 72, 0, 0, 0⟩) :=
  (decoder_sign_rule ⟨[true, false] ++ bitsOfNat 100 7 ++ [], 0, 1000, 100, 0, 0, 0⟩
    Bucket.B 100 [] (Or.inl rfl) (by decide) rfl).2

/-! ## C13: the leading-zero sentinel -/

/-- C13 (counterexample): a fresh encoder with anchor 1 is given two samples with
timestamp 0 and value 12.0 and then the sample (7, 12.5), whose XOR with the stored
value is `0x0001000000000000`, not zero.  That sample is written as the 38-bit delta 6
and its raw 64 value bits, not in the new-window form, and the stored window is still
(127, 0): after a sample with timestamp 0 `EncodePoint` takes the first-sample path
again. -/
theorem first_change_after_zero_timestamp_is_raw :
    (do
      let e0 ← EncodeHeader NewEncoder 1
      let e1 ← EncodePoint e0 ⟨0, 0x4028000000000000⟩
      let e2 ← EncodePoint e1 ⟨0, 0x4028000000000000⟩
      let e3 ← EncodePoint e2 ⟨7, 0x4029000000000000⟩
      pure (e2.storedValueBits ^^^ 0x4029000000000000, e3.wr.drop e2.wr.length,
        e3.storedLeadingZeros, e3.storedTrailingZeros)) =
    .ok (0x0001000000000000, bitsOfNat 6 38 ++ bitsOfNat 0x4029000000000000 64, 127, 0) := by
  rfl

/-- C13 (amended): for a freshly constructed encoder, after `EncodeHeader`, a first sample
and any number of following samples, all with the value bits `v`, the stored window is
still the initial (127, 0); if the latest of them has a non-zero timestamp, the next
sample whose XOR with `v` is non-zero is written as its timestamp section followed by
the new-window form: control bits 1, 1, the 5-bit leading-zero count, the 6-bit
significant-bit count (in 1..64) and the window bits; the stored window becomes the
leading and trailing zero counts of the XOR.  The reuse form 1, 0 is not used. -/
theorem first_change_writes_new_window (t0 : Nat) (pre : List Point) (v : Nat) (p : Point)
    (hne : pre ≠ []) (hpre : ∀ q ∈ pre, q.Value = v)
    (hlast : ∀ q ∈ pre.getLast?, q.Timestamp ≠ 0)
    (hv : v < 2 ^ 64) (hpv : p.Value < 2 ^ 64) (hx : v ^^^ p.Value ≠ 0) :
    ∃ e0 e e1, EncodeHeader NewEncoder t0 = .ok e0 ∧ encodePoints e0 pre = .ok e ∧
      e.storedLeadingZeros = 127 ∧ e.storedTrailingZeros = 0 ∧ e.storedValueBits = v ∧
      EncodePoint e p = .ok e1 ∧
      e1.wr = e.wr ++ tsSection (dodOf e p.Timestamp) ++ ([true, true]
        ++ bitsOfNat (numOfLeadingZeros (v ^^^ p.Value)) 5
        ++ bitsOfNat (64 - numOfLeadingZeros (v ^^^ p.Value)
            - numOfTrailingZeros (v ^^^ p.Value)) 6
        ++ bitsOfNat ((v ^^^ p.Value) / 2 ^ numOfTrailingZeros (v ^^^ p.Value))
            (64 - numOfLeadingZeros (v ^^^ p.Value) - numOfTrailingZeros (v ^^^ p.Value))) ∧
      1 ≤ 64 - numOfLeadingZeros (v ^^^ p.Value) - numOfTrailingZeros (v ^^^ p.Value) ∧
      e1.storedLeadingZeros = numOfLeadingZeros (v ^^^ p.Value) ∧
      e1.storedTrailingZeros = numOfTrailingZeros (v ^^^ p.Value) := by
  have hx64 : v ^^^ p.Value < 2 ^ 64 := Nat.xor_lt_two_pow hv hpv
  have hz := zeros_add_le _ hx hx64
  have hle := numOfLeadingZeros_le (v ^^^ p.Value)
  obtain ⟨e, hE, hl, ht, hval, hts⟩ := encodePoints_same_value v hv pre
    { NewEncoder with wr := NewEncoder.wr ++ bitsOfNat t0 64, headerTimestamp := t0 }
    (Or.inl rfl) hpre
  have hval1 := hval hne
  obtain ⟨q, hq⟩ : ∃ q, pre.getLast? = some q := by
    cases h : pre.getLast? with
    | none => exact absurd (List.getLast?_eq_none_iff.mp h) hne
    | some q => exact ⟨q, rfl⟩
  have hnz : e.storedTimestamp ≠ 0 := by
    rw [hts q (by rw [hq]; rfl)]
    exact hlast q (by rw [hq]; rfl)
  have hl1 : e.storedLeadingZeros = 127 := hl
  have ht1 : e.storedTrailingZeros = 0 := ht
  have hc : ¬ (127 ≤ numOfLeadingZeros (v ^^^ p.Value) ∧
      0 ≤ numOfTrailingZeros (v ^^^ p.Value)) := by omega
  refine ⟨_, e, _, EncodeHeader_eq NewEncoder t0, hE, hl1, ht1, hval1,
    EncodePoint_later e p hnz (by omega) hpv, ?_, by omega, ?_, ?_⟩
  · simp only [hl1, ht1, hval1, valueSection, if_neg hx, if_neg hc]
  · simp only [hl1, ht1, hval1, windowAfter, if_neg hx, if_neg hc]
  · simp only [hl1, ht1, hval1, windowAfter, if_neg hx, if_neg hc]

/-- C13 (witness): the third conformance vector: after two samples with the value 12.0,
the sample with the value 24.0 is written in the new-window form. -/
theorem first_change_writes_new_window_witness :
    ∃ e0 e e1, EncodeHeader NewEncoder 1427162400000000000 = .ok e0 ∧
      encodePoints e0 [⟨1427162462000000000, 0x4028000000000000⟩,
        ⟨1427162522000000000, 0x4028000000000000⟩] = .ok e ∧
      e.storedLeadingZeros = 127 ∧ e.storedTrailingZeros = 0 ∧
      e.storedValueBits = 0x4028000000000000 ∧
      EncodePoint e ⟨1427162582000000000, 0x4038000000000000⟩ = .ok e1 ∧
      e1.wr = e.wr ++ tsSection (dodOf e 1427162582000000000) ++ ([true, true]
        ++ bitsOfNat 11 5 ++ bitsOfNat 1 6 ++ bitsOfNat 1 1) ∧
      1 ≤ 1 ∧ e1.storedLeadingZeros = 11 ∧ e1.storedTrailingZeros = 52 :=
  first_change_writes_new_window 1427162400000000000
    [⟨1427162462000000000, 0x4028000000000000⟩, ⟨1427162522000000000, 0x4028000000000000⟩]
    0x4028000000000000 ⟨1427162582000000000, 0x4038000000000000⟩
    (by decide) (by decide) (by decide) (by decide) (by decide) (by decide)

/-! ## C14: the selector of the timestamp bucket -/

/-- C14: for every decoder state and input, `bitsToRead` never returns the error
`invalid bit header for bit length to read`.  Either the input starts with one of the
selectors 0, 10, 110, 1110, 1111, exactly those 1 to 4 bits are consumed and the width
0, 7, 9, 12, 64 of that selector is returned; or the input is exhausted before a
selector is complete (fewer than 4 bits are left, all of them ones) and the reader's
`io.EOF` is returned. -/
theorem bitsToRead_never_format_error (d : Decoder) :
    bitsToRead d ≠ .error .invalidBitHeader ∧
    ((∃ tail, d.rd = [false] ++ tail ∧ bitsToRead d = .ok (0, { d with rd := tail })) ∨
     (∃ tail, d.rd = [true, false] ++ tail ∧ bitsToRead d = .ok (7, { d with rd := tail })) ∨
     (∃ tail, d.rd = [true, true, false] ++ tail ∧
        bitsToRead d = .ok (9, { d with rd := tail })) ∨
     (∃ tail, d.rd = [true, true, true, false] ++ tail ∧
        bitsToRead d = .ok (12, { d with rd := tail })) ∨
     (∃ tail, d.rd = [true, true, true, true] ++ tail ∧
        bitsToRead d = .ok (64, { d with rd := tail })) ∨
     (bitsToRead d = .error .eof ∧ d.rd.length < 4 ∧
        d.rd = List.replicate d.rd.length true)) := by
  rcases bitsToRead_outcome d with ⟨b, tail, hrd, h⟩ | ⟨h, hl, hones⟩
  · refine ⟨(by rw [h]; intro hc; cases hc), ?_⟩
    cases b
    · exact Or.inl ⟨tail, hrd, h⟩
    · exact Or.inr (Or.inl ⟨tail, hrd, h⟩)
    · exact Or.inr (Or.inr (Or.inl ⟨tail, hrd, h⟩))
    · exact Or.inr (Or.inr (Or.inr (Or.inl ⟨tail, hrd, h⟩)))
    · exact Or.inr (Or.inr (Or.inr (Or.inr (Or.inl ⟨tail, hrd, h⟩))))
  · refine ⟨(by rw [h]; intro hc; cases hc), ?_⟩
    exact Or.inr (Or.inr (Or.inr (Or.inr (Or.inr ⟨h, hl, hones⟩))))

/-! ## C15: an unchanged value -/

/-- C15: for every encoder state, `writeValueXor` applied to the stored value bits
themselves (XOR zero) appends the single bit 0 and changes nothing else, in particular
neither `storedLeadingZeros` nor `storedTrailingZeros`.  For every decoder state,
`readValue` on an input starting with the bit 0 consumes exactly that bit, returns the
stored value bits and changes nothing else: stored window and stored value bits stay. -/
theorem unchanged_value_keeps_window (e : Encoder) (d : Decoder) (rest : List Bool) :
    writeValueXor e e.storedValueBits = .ok { e with wr := e.wr ++ [false] } ∧
    readValue { d with rd := false :: rest } = .ok (d.storedValueBits, { d with rd := rest }) := by
  constructor
  · simp [writeValueXor, WriteBit, bind, Except.bind, pure, Except.pure]
  · exact readValue_same { d with rd := false :: rest } rest rfl

/-! ## C16: size of a regular stream -/

/-- C16 (counterexample): after the anchor 1000 and the first sample at 1010, the four
samples at 1020, 1031, 1042, 1054 have the delta-of-deltas 0, 1, 0, 1.  With the values
alternating between 12.0 and -24.2 the encoder emits 295 bits for these four samples,
more than 16 bits per sample: the value sections take 77, 66, 66 and 66 bits.  With one
value throughout, the samples at `2^64 - 11`, 0 and 11 after the anchor `2^64 - 31` and
the first sample at `2^64 - 21` have the delta-of-deltas 0, 1, 0 modulo `2^64`, and
the encoder emits 114 bits for the three of them: the sample after the timestamp 0 is
written in the first-sample form of 102 bits. -/
theorem alternating_dods_with_changing_values_exceed_bound :
    dodsAlternate 1010 10 0 [1020, 1031, 1042, 1054] = true ∧
    (do
      let e0 ← EncodeHeader NewEncoder 1000
      let e1 ← EncodePoint e0 ⟨1010, 0x4028000000000000⟩
      let e2 ← encodePoints e1 [⟨1020, 0xC038333333333333⟩, ⟨1031, 0x4028000000000000⟩,
        ⟨1042, 0xC038333333333333⟩, ⟨1054, 0x4028000000000000⟩]
      pure (e2.wr.take e1.wr.length == e1.wr, e2.wr.length - e1.wr.length)) = .ok (true, 295) ∧
    ¬ (295 < 16 * 4) ∧
    dodsAlternate (2 ^ 64 - 21) 10 0 [2 ^ 64 - 11, 0, 11] = true ∧
    (do
      let e0 ← EncodeHeader NewEncoder (2 ^ 64 - 31)
      let e1 ← EncodePoint e0 ⟨2 ^ 64 - 21, 0x4028000000000000⟩
      let e2 ← encodePoints e1 [⟨2 ^ 64 - 11, 0x4028000000000000⟩, ⟨0, 0x4028000000000000⟩,
        ⟨11, 0x4028000000000000⟩]
      pure (e2.wr.take e1.wr.length == e1.wr, e2.wr.length - e1.wr.length)) = .ok (true, 114) ∧
    ¬ (114 < 16 * 3) := by
  refine ⟨by rfl, by rfl, by decide, by rfl, by rfl, by decide⟩

/-- C16 (amended): for every block whose samples have non-zero timestamps and one and the
same value, and whose samples after the first have delta-of-deltas alternating between 0
and 1 (starting with either), the bits `EncodePoint` emits for the samples after the
first total at most 10 bits per such sample (2 bits for a delta-of-delta 0, 10 bits for
a delta-of-delta 1), hence fewer than 16 bits per such sample. -/
theorem alternating_dods_size_bound (t0 : Nat) (p1 : Point) (ps : List Point) (dd : Int)
    (hp1 : p1.Timestamp ≠ 0) (hv : p1.Value < 2 ^ 64)
    (hps : ∀ q ∈ ps, q.Timestamp ≠ 0 ∧ q.Value = p1.Value) (hdd : dd = 0 ∨ dd = 1)
    (halt : dodsAlternate p1.Timestamp ((p1.Timestamp + 2 ^ 64 - t0) % 2 ^ 64) dd
      (ps.map (fun q => q.Timestamp)) = true) :
    ∃ e0 e1 e2 bits, EncodeHeader NewEncoder t0 = .ok e0 ∧ EncodePoint e0 p1 = .ok e1 ∧
      encodePoints e1 ps = .ok e2 ∧ e2.wr = e1.wr ++ bits ∧
      bits.length ≤ 10 * ps.length ∧ (ps ≠ [] → bits.length < 16 * ps.length) := by
  obtain ⟨e0, he0, hst0, hh0⟩ : ∃ e0, EncodeHeader NewEncoder t0 = .ok e0 ∧
      e0.storedTimestamp = 0 ∧ e0.headerTimestamp = t0 :=
    ⟨_, EncodeHeader_eq NewEncoder t0, rfl, rfl⟩
  have h1 : EncodePoint e0 p1 = writeFirst e0 p1 := by unfold EncodePoint; rw [if_pos hst0]
  rw [writeFirst_eq e0 p1, hh0] at h1
  obtain ⟨e1, he1, hts, hdl, hvl⟩ : ∃ e1, EncodePoint e0 p1 = .ok e1 ∧
      e1.storedTimestamp = p1.Timestamp ∧
      e1.storedDelta = (p1.Timestamp + 2 ^ 64 - t0) % 2 ^ 64 ∧
      e1.storedValueBits = p1.Value := ⟨_, h1, rfl, rfl, rfl⟩
  obtain ⟨e2, bits, h2, hwr, hlen⟩ := alternating_points_size p1.Value hv ps e1 dd
    (by rw [hts]; exact hp1) hvl hps hdd (by rw [hts, hdl]; exact halt)
  refine ⟨e0, e1, e2, bits, he0, he1, h2, hwr, hlen, fun hne => ?_⟩
  have : 0 < ps.length := List.length_pos.mpr hne
  omega

/-- C16 (witness): anchor 1000, first sample at 1010, then samples at 1020, 1031, 1042,
1054 (delta-of-deltas 0, 1, 0, 1), all with the value 12.0. -/
theorem alternating_dods_size_bound_witness :
    ∃ e0 e1 e2 bits, EncodeHeader NewEncoder 1000 = .ok e0 ∧
      EncodePoint e0 ⟨1010, 0x4028000000000000⟩ = .ok e1 ∧
      encodePoints e1 [⟨1020, 0x4028000000000000⟩, ⟨1031, 0x4028000000000000⟩,
        ⟨1042, 0x4028000000000000⟩, ⟨1054, 0x4028000000000000⟩] = .ok e2 ∧
      e2.wr = e1.wr ++ bits ∧
      bits.length ≤ 10 * 4 ∧
      (([⟨1020, 0x4028000000000000⟩, ⟨1031, 0x4028000000000000⟩,
        ⟨1042, 0x4028000000000000⟩, ⟨1054, 0x4028000000000000⟩] : List Point) ≠ [] →
        bits.length < 16 * 4) :=
  alternating_dods_size_bound 1000 ⟨1010, 0x4028000000000000⟩
    [⟨1020, 0x4028000000000000⟩, ⟨1031, 0x4028000000000000⟩,
     ⟨1042, 0x4028000000000000⟩, ⟨1054, 0x4028000000000000⟩] 0
    (by decide) (by decide) (by decide) (Or.inl rfl) (by rfl)

/-! ## C17: timestamps that are not monotonic -/

/-- C17: for every anchor `t0`, every first timestamp `ts1 ≠ 0` with
`0 ≤ ts1 - t0 < 2^38 - 1`, every list of later timestamps that are arbitrary non-zero
`uint64` values (smaller than their predecessor or not) and one 64-bit value for all
samples, encoding succeeds and decoding the bytes, with more loop iterations than
samples, returns the anchor and exactly the same samples in order: end-of-block is
reported at the finish marker only.  No timestamp section the encoder writes for a
sample is the finish marker `1111` followed by 64 one-bits. -/
theorem nonmonotonic_timestamps_roundtrip (t0 ts1 v : Nat) (later : List Nat)
    (ht0 : t0 < 2 ^ 64) (hnz : ts1 ≠ 0) (hts1 : ts1 < 2 ^ 64) (hle : t0 ≤ ts1)
    (hd : ts1 - t0 < 2 ^ 38 - 1) (hlater : ∀ t ∈ later, t ≠ 0 ∧ t < 2 ^ 64)
    (hv : v < 2 ^ 64) :
    (∃ bytes, encodeBlock t0 (⟨ts1, v⟩ :: later.map (fun t => ⟨t, v⟩)) = .ok bytes ∧
      ∀ fuel, later.length + 1 < fuel →
        decodeBlock fuel bytes = some (.ok (t0, ⟨ts1, v⟩ :: later.map (fun t => ⟨t, v⟩)))) ∧
    (∀ (e : Encoder) (ts : Nat),
      tsSection (dodOf e ts) ≠ [true, true, true, true] ++ List.replicate 64 true) := by
  refine ⟨?_, fun e ts => tsSection_ne_marker _ (dodOf_range e ts).1 (dodOf_range e ts).2⟩
  obtain ⟨bytes, hE, hD⟩ := roundtrip_core t0 (⟨ts1, v⟩ :: later.map (fun t => ⟨t, v⟩)) ht0
    (by
      intro p hp
      rcases List.mem_cons.mp hp with h | h
      · subst h; exact ⟨hnz, hts1, hv⟩
      · obtain ⟨t, ht, rfl⟩ := List.mem_map.mp h
        exact ⟨(hlater t ht).1, (hlater t ht).2, hv⟩)
    (by
      intro p hp
      simp only [List.head?_cons, Option.mem_def, Option.some.injEq] at hp
      subst hp
      show (ts1 + 2 ^ 64 - t0) % 2 ^ 64 < 2 ^ 38 - 1
      omega)
    (by
      show windowsFit 127 0 v _ = true
      apply windowsFit_same_value
      intro x hx
      simp only [List.map_map, List.mem_map, Function.comp] at hx
      obtain ⟨_, _, rfl⟩ := hx
      rfl)
  refine ⟨bytes, hE, fun fuel hf => hD fuel ?_⟩
  simpa using hf

/-- C17 (witness): anchor 1427162400000000000, first sample 62 seconds later, then the
timestamps 5, `2^64 - 1`, 7 and the anchor itself, all with the value 12.0. -/
theorem nonmonotonic_timestamps_roundtrip_witness :
    ∃ bytes, encodeBlock 1427162400000000000
        (⟨1427162462000000000, 0x4028000000000000⟩ ::
          [5, 18446744073709551615, 7, 1427162400000000000].map
            (fun t => ⟨t, 0x4028000000000000⟩)) = .ok bytes ∧
      ∀ fuel, [5, 18446744073709551615, 7, 1427162400000000000].length + 1 < fuel →
        decodeBlock fuel bytes = some (.ok (1427162400000000000,
          ⟨1427162462000000000, 0x4028000000000000⟩ ::
            [5, 18446744073709551615, 7, 1427162400000000000].map
              (fun t => ⟨t, 0x4028000000000000⟩))) :=
  (nonmonotonic_timestamps_roundtrip 1427162400000000000 1427162462000000000
    0x4028000000000000 [5, 18446744073709551615, 7, 1427162400000000000]
    (by decide) (by decide) (by decide) (by decide) (by decide) (by decide) (by decide)).1

/-! ## C18: the stored window of the encoder -/

/-- C18: in every encoder state reached from `NewEncoder` by `EncodeHeader` and any
sequence of `EncodePoint` calls (64-bit values), the stored window is either still the
initial (127, 0) or satisfies `storedLeadingZeros + storedTrailingZeros ≤ 63`.  For
every next 64-bit value with a non-zero XOR: when `writeValueXor` takes the reuse
branch, the width `64 - storedLeadingZeros - storedTrailingZeros` computed in `uint8`
equals the mathematical difference (no wrap-around) and lies in 1..64; when it takes
the new-window branch, the significant-bit count `64 - lead - trail` computed in
`uint8` equals the mathematical difference and lies in 1..64. -/
theorem encoder_window_invariant (t0 : Nat) (ps : List Point)
    (hps : ∀ q ∈ ps, q.Value < 2 ^ 64) :
    ∃ e0 e, EncodeHeader NewEncoder t0 = .ok e0 ∧ encodePoints e0 ps = .ok e ∧
      ((e.storedLeadingZeros = 127 ∧ e.storedTrailingZeros = 0) ∨
        e.storedLeadingZeros + e.storedTrailingZeros ≤ 63) ∧
      ∀ v, v < 2 ^ 64 → e.storedValueBits ^^^ v ≠ 0 →
        ((e.storedLeadingZeros ≤ numOfLeadingZeros (e.storedValueBits ^^^ v) ∧
            e.storedTrailingZeros ≤ numOfTrailingZeros (e.storedValueBits ^^^ v)) →
          e.storedLeadingZeros + e.storedTrailingZeros ≤ 63 ∧
          sub8 (sub8 64 e.storedLeadingZeros) e.storedTrailingZeros =
            64 - e.storedLeadingZeros - e.storedTrailingZeros ∧
          1 ≤ sub8 (sub8 64 e.storedLeadingZeros) e.storedTrailingZeros ∧
          sub8 (sub8 64 e.storedLeadingZeros) e.storedTrailingZeros ≤ 64) ∧
        (¬ (e.storedLeadingZeros ≤ numOfLeadingZeros (e.storedValueBits ^^^ v) ∧
            e.storedTrailingZeros ≤ numOfTrailingZeros (e.storedValueBits ^^^ v)) →
          sub8 (sub8 64 (numOfLeadingZeros (e.storedValueBits ^^^ v)))
              (numOfTrailingZeros (e.storedValueBits ^^^ v)) =
            64 - numOfLeadingZeros (e.storedValueBits ^^^ v)
              - numOfTrailingZeros (e.storedValueBits ^^^ v) ∧
          1 ≤ sub8 (sub8 64 (numOfLeadingZeros (e.storedValueBits ^^^ v)))
              (numOfTrailingZeros (e.storedValueBits ^^^ v)) ∧
          sub8 (sub8 64 (numOfLeadingZeros (e.storedValueBits ^^^ v)))
              (numOfTrailingZeros (e.storedValueBits ^^^ v)) ≤ 64) := by
  obtain ⟨e0, he0, hsv0, hinv0⟩ : ∃ e0, EncodeHeader NewEncoder t0 = .ok e0 ∧
      e0.storedValueBits < 2 ^ 64 ∧
      ((e0.storedLeadingZeros = 127 ∧ e0.storedTrailingZeros = 0) ∨
        e0.storedLeadingZeros + e0.storedTrailingZeros ≤ 63) :=
    ⟨_, EncodeHeader_eq NewEncoder t0, (by show 0 < 2 ^ 64; norm_num), Or.inl ⟨rfl, rfl⟩⟩
  obtain ⟨e, he, hsv, hinv⟩ := encodePoints_window ps e0 hps hsv0 hinv0
  refine ⟨e0, e, he0, he, hinv, fun v hv hx => ?_⟩
  have hx64 : e.storedValueBits ^^^ v < 2 ^ 64 := Nat.xor_lt_two_pow hsv hv
  constructor
  · intro hc
    have hw := window_facts _ _ _ hx hx64 hc.1 hc.2
    have hs := sub8_window e.storedLeadingZeros e.storedTrailingZeros (by omega)
    refine ⟨hw.1, hs, ?_, ?_⟩ <;> rw [hs] <;> omega
  · intro _
    have hz := zeros_add_le _ hx hx64
    have hs := sub8_window (numOfLeadingZeros (e.storedValueBits ^^^ v))
      (numOfTrailingZeros (e.storedValueBits ^^^ v)) (by omega)
    refine ⟨hs, ?_, ?_⟩ <;> rw [hs] <;> omega

/-- C18 (witness): the state after the three samples of the fourth conformance vector. -/
theorem encoder_window_invariant_witness :
    ∃ e0 e, EncodeHeader NewEncoder 1427162400000000000 = .ok e0 ∧
      encodePoints e0 [⟨1427162462000000000, 0x4028000000000000⟩,
        ⟨1427162522000000000, 0x4029000000000000⟩,
        ⟨1427162582000000000, 0xC038333333333333⟩] = .ok e ∧
      ((e.storedLeadingZeros = 127 ∧ e.storedTrailingZeros = 0) ∨
        e.storedLeadingZeros + e.storedTrailingZeros ≤ 63) :=
  let ⟨e0, e, h0, h1, h2, _⟩ := encoder_window_invariant 1427162400000000000
    [⟨1427162462000000000, 0x4028000000000000⟩, ⟨1427162522000000000, 0x4029000000000000⟩,
     ⟨1427162582000000000, 0xC038333333333333⟩] (by decide)
  ⟨e0, e, h0, h1, h2⟩

/-! ## C19: decoding makes progress -/

/-- C19: for every decoder state and every input, conforming or not, a `DecodePoint`
call that returns a sample leaves a proper suffix of the input that is at least 2 bits
shorter.  Hence on every byte input the loop `DecodeHeader`, then `DecodePoint` until
an error or end-of-block, terminates: with more than `4 * len(input)` loop iterations
allowed it returns a result, and a successful result holds at most `4 * len(input)`
samples. -/
theorem decoding_makes_progress (data : List Nat) (fuel : Nat)
    (hfuel : 4 * data.length < fuel) :
    (∀ d p d1, DecodePoint d = .ok (p, d1) →
      d1.rd <:+ d.rd ∧ d1.rd.length + 2 ≤ d.rd.length) ∧
    ∃ r, decodeBlock fuel data = some r ∧
      ∀ t0 pts, r = .ok (t0, pts) → pts.length ≤ 4 * data.length := by
  constructor
  · intro d p d1 h
    refine ⟨DecodePoint_suffix d p d1 h, ?_⟩
    rcases DecodePoint_outcome d with ⟨p2, d2, h2, hl⟩ | ⟨h2, _⟩
    · rw [h] at h2
      cases h2
      exact hl
    · rw [h] at h2
      cases h2
  · have hlen := bitsOfBytes_length data
    rcases ReadBits_outcome (bitsOfBytes data) 64 with ⟨v, hv, _, _⟩ | ⟨he, hl⟩
    · obtain ⟨r, hr, hp⟩ := decodePoints_progress fuel
        { NewDecoder (bitsOfBytes data) with rd := (bitsOfBytes data).drop 64,
                                             headerTimestamp := v } []
        (by simp only [List.length_drop]; omega)
      simp only [NewDecoder, List.length_drop, List.length_nil] at hr hp
      cases r with
      | error err =>
        refine ⟨.error err, ?_, fun t0 pts h => by cases h⟩
        unfold decodeBlock DecodeHeader
        simp only [bind, Except.bind, NewDecoder, hv, pure, Except.pure]
        rw [hr]
      | ok pts =>
        refine ⟨.ok (v, pts), ?_, fun t0 pts1 h => ?_⟩
        · unfold decodeBlock DecodeHeader
          simp only [bind, Except.bind, NewDecoder, hv, pure, Except.pure]
          rw [hr]
        · cases h
          have := hp pts rfl
          omega
    · refine ⟨.error .eof, ?_, fun t0 pts h => by cases h⟩
      unfold decodeBlock DecodeHeader
      simp only [bind, Except.bind, NewDecoder, he]

/-- C19 (witness): thirty bytes that are no encoder output, read with 121 loop
iterations allowed. -/
theorem decoding_makes_progress_witness :
    ∃ r, decodeBlock 121
        [0x13, 0xce, 0x4c, 0xa4, 0x30, 0xcb, 0x40, 0x00, 0xa5, 0x5a, 0xa5, 0x5a, 0xa5,
         0x00, 0xa0, 0x00, 0x00, 0x00, 0x00, 0x00, 0x03, 0x12, 0x34, 0x56, 0x78, 0x9a,
         0xbc, 0xde, 0xf0, 0x0d] = some r ∧
      ∀ t0 pts, r = .ok (t0, pts) → pts.length ≤ 4 * 30 :=
  (decoding_makes_progress
    [0x13, 0xce, 0x4c, 0xa4, 0x30, 0xcb, 0x40, 0x00, 0xa5, 0x5a, 0xa5, 0x5a, 0xa5,
     0x00, 0xa0, 0x00, 0x00, 0x00, 0x00, 0x00, 0x03, 0x12, 0x34, 0x56, 0x78, 0x9a,
     0xbc, 0xde, 0xf0, 0x0d] 121 (by decide)).2

end Timeseries
